import Mathlib

/-!
Shallow embedding of the URL-shortener core (`src/utils/urlShortener.ts`) of the
repository, together with theorems settling the specification claims.

Modelling conventions, used throughout:

* Timestamps (`Date` objects and the ISO-8601 strings produced by
  `Date.prototype.toISOString`) are modelled by their epoch-millisecond value as
  an `Int`.  `toISOString` and the `Date` constructor are mutually inverse
  injections on the valid range, so string-level date formatting is collapsed
  to the identity on the epoch value.
* JavaScript numbers that carry fractional information (the `validityMinutes`
  request field, which is tested with `Number.isInteger`) are modelled as `ℚ`.
* `Math.random()` draws are modelled by an oracle stream `rnd : Nat → Fin 62`
  of alphabet indices, consumed sequentially; the unbounded `do … while` retry
  loop of the generator carries an explicit attempt bound (`fuel`), with `none`
  denoting that the loop did not exit within that bound.
* `localStorage` writes are reported in each operation's output (`saved` flag /
  the JSON document written); the store itself is external to the service.
* A JavaScript `Map` is an insertion-ordered sequence of key-value pairs with
  unique keys; it is modelled as a `List (String × ShortenedUrl)` where `set`
  overwrites the first matching key in place (keeping its position) and
  appends otherwise, exactly the observable `Map` behaviour.
-/

/-- `ClickData` record (urlShortener.ts lines 15-21).  `ipHash` is optional. -/
structure ClickData where
  timestamp : Int
  source : String
  location : String
  userAgent : String
  ipHash : Option String
deriving DecidableEq, Repr

/-- `ShortenedUrl` record (urlShortener.ts lines 3-13).  `customShortCode` is
optional; `createdAt`/`expiresAt` are epoch-millisecond timestamps (see the
module conventions); `validityMinutes` is a JavaScript number. -/
structure ShortenedUrl where
  id : String
  originalUrl : String
  shortCode : String
  customShortCode : Option String
  createdAt : Int
  expiresAt : Int
  validityMinutes : ℚ
  clicks : List ClickData
  isExpired : Bool
deriving DecidableEq, Repr

/-- `CreateUrlRequest` (urlShortener.ts lines 23-27). -/
structure CreateUrlRequest where
  originalUrl : String
  validityMinutes : Option ℚ
  customShortCode : Option String
deriving DecidableEq, Repr

/-- The registry's in-memory state: the insertion-ordered `Map` of
`shortCode → ShortenedUrl` (field `urls` of `UrlShortenerService`). -/
abbrev UrlMap := List (String × ShortenedUrl)

/-- `Map.prototype.get`: value of the first (in a well-formed map, only)
entry with the given key. -/
def mapGet (m : UrlMap) (k : String) : Option ShortenedUrl :=
  (m.find? fun p => p.1 == k).map (·.2)

/-- `Map.prototype.has`. -/
def mapHas (m : UrlMap) (k : String) : Bool :=
  m.any fun p => p.1 == k

/-- `Map.prototype.set`: overwrite the first entry with this key in place,
else append a new entry. -/
def mapSet (m : UrlMap) (k : String) (v : ShortenedUrl) : UrlMap :=
  match m with
  | [] => [(k, v)]
  | p :: rest => if p.1 == k then (k, v) :: rest else p :: mapSet rest k v

/-- The keys of the map, in insertion order. -/
def mapKeys (m : UrlMap) : List String := m.map (·.1)

/-- Environment supplied by the host at each call: clock, caller metadata,
the fresh-id string built from `Date.now()` and `Math.random`, and the
random-index oracle with its attempt bound for the code generator. -/
structure Env where
  now : Int
  location : String
  userAgent : String
  ipHash : String
  freshId : String
  rnd : Nat → Fin 62
  fuel : Nat

/-- `isValidUrl` (urlShortener.ts lines 69-79): the browser's `URL`
constructor is a host builtin; it is modelled by its observable acceptance of
an `http:`/`https:` scheme (a scheme-prefix test on the character list),
which is all the registry logic consults. -/
def isValidUrl (url : String) : Bool :=
  url.toList.take 7 == "http://".toList || url.toList.take 8 == "https://".toList

/-- The character class of the regex `/^[a-zA-Z0-9]+$/`. -/
def isAlphanumericChar (c : Char) : Bool :=
  ('a' ≤ c && c ≤ 'z') || ('A' ≤ c && c ≤ 'Z') || ('0' ≤ c && c ≤ '9')

/-- `isValidShortCode` (urlShortener.ts lines 82-94): length 3-20 and all
characters alphanumeric (the regex `/^[a-zA-Z0-9]+$/`). -/
def isValidShortCode (shortCode : String) : Bool :=
  (3 ≤ shortCode.length && shortCode.length ≤ 20)
    && shortCode.toList.all isAlphanumericChar

/-- The 62-character alphabet literal of `generateShortCode`
(urlShortener.ts line 98). -/
def shortCodeChars : List Char :=
  "abcdefghijklmnopqrstuvwxyzABCDEFGHIJKLMNOPQRSTUVWXYZ0123456789".toList

theorem shortCodeChars_length : shortCodeChars.length = 62 := rfl

/-- `chars.charAt(i)` for an in-range index. -/
def charAt (i : Fin 62) : Char :=
  shortCodeChars.get (Fin.cast shortCodeChars_length.symm i)

/-- One attempt of the generator's inner `for` loop: the 6-character string
built from draws `6*k, …, 6*k+5` of the random oracle. -/
def attemptString (rnd : Nat → Fin 62) (k : Nat) : String :=
  String.mk ((List.range 6).map fun i => charAt (rnd (6 * k + i)))

/-- The `do … while (this.urls.has(result))` loop of `generateShortCode`
(urlShortener.ts lines 101-106), with an explicit bound on the number of
attempts observed; `none` means the loop did not exit within the bound. -/
def genLoop (rnd : Nat → Fin 62) (m : UrlMap) : Nat → Nat → Option String
  | _, 0 => none
  | k, fuel + 1 =>
    let result := attemptString rnd k
    if mapHas m result then genLoop rnd m (k + 1) fuel else some result

/-- `generateShortCode` (urlShortener.ts lines 97-110). -/
def generateShortCode (rnd : Nat → Fin 62) (fuel : Nat) (m : UrlMap) : Option String :=
  genLoop rnd m 0 fuel

instance {ε α : Type} [DecidableEq ε] [DecidableEq α] : DecidableEq (Except ε α)
  | .error a, .error b => decidable_of_iff (a = b) (by simp)
  | .error _, .ok _ => isFalse (by simp)
  | .ok _, .error _ => isFalse (by simp)
  | .ok a, .ok b => decidable_of_iff (a = b) (by simp)

/-- `isShortCodeUnique` (urlShortener.ts lines 113-119). -/
def isShortCodeUnique (m : UrlMap) (shortCode : String) : Bool :=
  ! mapHas m shortCode

/-- Output of `createShortenedUrl`: the `{success, data?, error?}` result, the
map afterwards, and whether `saveToStorage` ran. -/
structure CreateOut where
  result : Except String ShortenedUrl
  urls : UrlMap
  saved : Bool
deriving DecidableEq, Repr

/-- `request.validityMinutes || DEFAULT_VALIDITY_MINUTES` (urlShortener.ts
line 130): `||` substitutes the default for an absent value and for the falsy
number `0`. -/
def resolvedValidity (v? : Option ℚ) : ℚ :=
  match v? with
  | none => 30
  | some v => if v = 0 then 30 else v

/-- The shortcode-selection step of `createShortenedUrl` (urlShortener.ts
lines 136-147): `if (request.customShortCode)` is a truthiness test, so an
absent custom code and the falsy empty string both fall through to the
generator. -/
def resolveShortCode (env : Env) (m : UrlMap) (custom : Option String) :
    Option (Except String String) :=
  match custom with
  | some c =>
    if c ≠ "" then
      if ¬ isValidShortCode c then
        some (.error "Invalid shortcode. Must be 3-20 alphanumeric characters.")
      else if ¬ isShortCodeUnique m c then
        some (.error "Shortcode already exists. Please choose a different one.")
      else some (.ok c)
    else (generateShortCode env.rnd env.fuel m).map .ok
  | none => (generateShortCode env.rnd env.fuel m).map .ok

/-- `createShortenedUrl` (urlShortener.ts lines 122-176).  `none` is the
modelling artifact for the generator loop not exiting within the attempt
bound (see `genLoop`); every `some` is a genuine return of the source.
`request.validityMinutes || DEFAULT_VALIDITY_MINUTES` maps the JavaScript
falsy number `0` to the default. -/
def createShortenedUrl (env : Env) (m : UrlMap) (request : CreateUrlRequest) :
    Option CreateOut :=
  if ¬ isValidUrl request.originalUrl then
    some ⟨.error "Invalid URL format. Please provide a valid HTTP or HTTPS URL.", m, false⟩
  else
    let validityMinutes : ℚ := resolvedValidity request.validityMinutes
    if validityMinutes ≤ 0 ∨ ¬ validityMinutes.isInt then
      some ⟨.error "Validity must be a positive integer representing minutes.", m, false⟩
    else
      match resolveShortCode env m request.customShortCode with
      | none => none
      | some (.error e) => some ⟨.error e, m, false⟩
      | some (.ok shortCode) =>
        let shortenedUrl : ShortenedUrl :=
          { id := env.freshId
            originalUrl := request.originalUrl
            shortCode := shortCode
            customShortCode := request.customShortCode
            createdAt := env.now
            -- `now.getTime() + validityMinutes * 60 * 1000`; the guard above
            -- ensures `validityMinutes` is the integer `validityMinutes.num`.
            expiresAt := env.now + validityMinutes.num * 60 * 1000
            validityMinutes := validityMinutes
            clicks := []
            isExpired := false }
        some ⟨.ok shortenedUrl, mapSet m shortCode shortenedUrl, true⟩

/-- Output of `getShortenedUrl`: the returned record (or `null`), the map
afterwards, and whether `saveToStorage` ran. -/
structure ResolveOut where
  result : Option ShortenedUrl
  urls : UrlMap
  saved : Bool
deriving DecidableEq, Repr

/-- `getShortenedUrl` (urlShortener.ts lines 179-198): look up, lazily flip
`isExpired` when `expiresAt < now` strictly, persisting on a flip. -/
def getShortenedUrl (now : Int) (m : UrlMap) (shortCode : String) : ResolveOut :=
  match mapGet m shortCode with
  | none => ⟨none, m, false⟩
  | some url =>
    let isExpired : Bool := url.expiresAt < now
    if isExpired ∧ ¬ url.isExpired then
      let url' := { url with isExpired := true }
      ⟨some url', mapSet m shortCode url', true⟩
    else
      ⟨some url, m, false⟩

/-- Output of `accessShortenedUrl`: `ok originalUrl` or `error message`, the
map afterwards, and whether `saveToStorage` ran. -/
structure AccessOut where
  result : Except String String
  urls : UrlMap
  saved : Bool
deriving DecidableEq, Repr

/-- `accessShortenedUrl` (urlShortener.ts lines 201-233): resolve, fail on a
missing or expired record, else append one click and persist. -/
def accessShortenedUrl (env : Env) (m : UrlMap) (shortCode : String)
    (source : String) : AccessOut :=
  let r := getShortenedUrl env.now m shortCode
  match r.result with
  | none => ⟨.error "Short URL not found.", r.urls, r.saved⟩
  | some url =>
    if url.isExpired then
      ⟨.error "Short URL has expired.", r.urls, r.saved⟩
    else
      let clickData : ClickData :=
        { timestamp := env.now
          source := source
          location := env.location
          userAgent := env.userAgent
          ipHash := some env.ipHash }
      let url' := { url with clicks := url.clicks ++ [clickData] }
      ⟨.ok url.originalUrl, mapSet r.urls shortCode url', true⟩

/-- One insertion step of the stable sort: place `x` after every element
strictly before it under `le`, and before the first element not strictly
before it — in particular before every element tied with it. -/
def insertS {α : Type} (le : α → α → Bool) (x : α) : List α → List α
  | [] => [x]
  | y :: ys => if le y x && ! le x y then y :: insertS le x ys else x :: y :: ys

/-- `Array.prototype.sort` with a consistent comparator: ES2019 requires the
sort to be stable, and a stable sort's output under a total preorder is
unique, so any stable sort is a faithful model; this one is a structurally
recursive insertion sort (`le a b` meaning `a` may come before `b`). -/
def stableSort {α : Type} (le : α → α → Bool) : List α → List α
  | [] => []
  | x :: xs => insertS le x (stableSort le xs)

/-- `getAllUrls` (urlShortener.ts lines 256-259): all records, stably sorted
by `createdAt` descending. -/
def getAllUrls (m : UrlMap) : List ShortenedUrl :=
  stableSort (fun a b => decide (b.createdAt ≤ a.createdAt)) (m.map (·.2))

/-- `Map.prototype.delete`: remove the (first) entry with this key. -/
def mapDelete (m : UrlMap) (k : String) : UrlMap :=
  match m with
  | [] => []
  | p :: rest => if p.1 == k then rest else p :: mapDelete rest k

/-- Output of `cleanupExpiredUrls`: map afterwards, the local `cleanedCount`,
whether `saveToStorage` ran, and the JavaScript return value of the call —
`none`, because the method is declared `(): void` and has no return
statement, so a caller receives `undefined`, never a number. -/
structure CleanupOut where
  urls : UrlMap
  cleanedCount : Nat
  saved : Bool
  ret : Option Int
deriving DecidableEq, Repr

/-- The loop body of `cleanupExpiredUrls` (urlShortener.ts lines 313-328):
delete the entry and bump the counter when its record has `expiresAt < now`.
The `for … of` loop visits the original entry sequence (deleting the current
entry does not disturb a `Map` iterator), so the sweep is a fold of this step
over the original entries. -/
def cleanupStep (now : Int) (acc : UrlMap × Nat) (p : String × ShortenedUrl) :
    UrlMap × Nat :=
  if p.2.expiresAt < now then (mapDelete acc.1 p.1, acc.2 + 1) else acc

/-- The full sweep: fold `cleanupStep` over the original entry sequence,
starting from the live map and a zero counter. -/
def cleanupExpiredUrls (now : Int) (m : UrlMap) : CleanupOut :=
  let fin := m.foldl (cleanupStep now) (m, 0)
  ⟨fin.1, fin.2, decide (0 < fin.2), none⟩

/-! ### Persistence: the JSON document written by `saveToStorage` and read
back by `loadFromStorage`.

`JSON.parse ∘ JSON.stringify` is the identity on the JSON value universe, so
the string layer is elided and the stored document is modelled as a JSON
value.  `JSON.stringify` omits object properties whose value is `undefined`,
which is how the optional `customShortCode` and `ipHash` fields disappear
from and reappear in the document. -/

/-- JSON values (numbers as `ℚ`; `Date` strings by their epoch value, per the
module conventions). -/
inductive Json where
  | null : Json
  | bool (b : Bool) : Json
  | num (q : ℚ) : Json
  | str (s : String) : Json
  | arr (elems : List Json) : Json
  | obj (props : List (String × Json)) : Json
deriving Repr

/-- Property lookup on a JSON object (first match); `none` on a missing
property or a non-object, the JavaScript `undefined`. -/
def jsonLookup (j : Json) (key : String) : Option Json :=
  match j with
  | .obj props => (props.find? fun p => p.1 == key).map (·.2)
  | _ => none

/-- `JSON.stringify` image of a `ClickData` record, fields in declaration
order, `undefined` (`none`) fields omitted. -/
def encodeClick (c : ClickData) : Json :=
  .obj ([("timestamp", .num (c.timestamp : ℚ)),
         ("source", .str c.source),
         ("location", .str c.location),
         ("userAgent", .str c.userAgent)] ++
        (match c.ipHash with
         | some h => [("ipHash", .str h)]
         | none => []))

/-- Reading a `ClickData` back from its JSON image. -/
def decodeClick (j : Json) : Option ClickData :=
  match jsonLookup j "timestamp", jsonLookup j "source", jsonLookup j "location",
      jsonLookup j "userAgent" with
  | some (.num t), some (.str src), some (.str loc), some (.str ua) =>
    if t.isInt then
      match jsonLookup j "ipHash" with
      | some (.str h) => some ⟨t.num, src, loc, ua, some h⟩
      | none => some ⟨t.num, src, loc, ua, none⟩
      | some _ => none
    else none
  | _, _, _, _ => none

/-- `JSON.stringify` image of a `ShortenedUrl` record. -/
def encodeUrl (u : ShortenedUrl) : Json :=
  .obj ([("id", .str u.id), ("originalUrl", .str u.originalUrl),
         ("shortCode", .str u.shortCode)] ++
        (match u.customShortCode with
         | some c => [("customShortCode", .str c)]
         | none => []) ++
        [("createdAt", .num (u.createdAt : ℚ)),
         ("expiresAt", .num (u.expiresAt : ℚ)),
         ("validityMinutes", .num u.validityMinutes),
         ("clicks", .arr (u.clicks.map encodeClick)),
         ("isExpired", .bool u.isExpired)])

/-- Reading back the `clicks` array elementwise. -/
def decodeClicks : List Json → Option (List ClickData)
  | [] => some []
  | j :: rest =>
    match decodeClick j, decodeClicks rest with
    | some c, some cs => some (c :: cs)
    | _, _ => none

/-- Reading a `ShortenedUrl` back from its JSON image. -/
def decodeUrl (j : Json) : Option ShortenedUrl :=
  match jsonLookup j "id", jsonLookup j "originalUrl", jsonLookup j "shortCode",
      jsonLookup j "createdAt", jsonLookup j "expiresAt",
      jsonLookup j "validityMinutes", jsonLookup j "clicks",
      jsonLookup j "isExpired" with
  | some (.str i), some (.str ou), some (.str sc), some (.num ca),
      some (.num ea), some (.num vm), some (.arr cl), some (.bool ie) =>
    if ca.isInt ∧ ea.isInt then
      match decodeClicks cl with
      | some clicks =>
        match jsonLookup j "customShortCode" with
        | some (.str c) => some ⟨i, ou, sc, some c, ca.num, ea.num, vm, clicks, ie⟩
        | none => some ⟨i, ou, sc, none, ca.num, ea.num, vm, clicks, ie⟩
        | some _ => none
      | none => none
    else none
  | _, _, _, _, _, _, _, _ => none

/-- `saveToStorage` (urlShortener.ts lines 55-66): the document written under
the storage key — `{ urls: Array.from(this.urls.entries()), lastUpdated }`. -/
def saveToStorage (m : UrlMap) (now : Int) : Json :=
  .obj [("urls", .arr (m.map fun p => .arr [.str p.1, encodeUrl p.2])),
        ("lastUpdated", .num (now : ℚ))]

/-- One `[shortCode, record]` pair of the stored `urls` array. -/
def decodePair (j : Json) : Option (String × ShortenedUrl) :=
  match j with
  | .arr [.str k, rec] => (decodeUrl rec).map fun u => (k, u)
  | _ => none

/-- Reading back the stored `urls` array of pairs elementwise. -/
def decodePairs : List Json → Option (List (String × ShortenedUrl))
  | [] => some []
  | j :: rest =>
    match decodePair j, decodePairs rest with
    | some p, some ps => some (p :: ps)
    | _, _ => none

/-- `new Map(pairs)`: insert the pairs left to right with `Map.set`. -/
def mapFromPairs (l : List (String × ShortenedUrl)) : UrlMap :=
  l.foldl (fun m p => mapSet m p.1 p.2) []

/-- `loadFromStorage` (urlShortener.ts lines 41-52): parse the stored
document and rebuild the map from `data.urls || []`. -/
def loadFromStorage (j : Json) : Option UrlMap :=
  match jsonLookup j "urls" with
  | some (.arr pairs) => (decodePairs pairs).map mapFromPairs
  | _ => some []

/-! ### Stats aggregator: `getTopSources`.

The counts accumulator is a JavaScript plain object
(`{} as Record<string, number>`), so `Object.entries` enumerates its keys in
property order: keys that are canonical array-index strings first, in
ascending numeric order, then the remaining string keys in insertion order
(ECMA-262 `OrdinaryOwnPropertyKeys`).  `Array.prototype.sort` is a stable
sort (ES2019), modelled by `stableSort`. -/

/-- Decimal value of a digit string (as characters). -/
def digitsToNat (l : List Char) : Nat :=
  l.foldl (fun n c => n * 10 + (c.toNat - '0'.toNat)) 0

/-- Is the string a canonical array-index property key: a digit string with
no leading zero (except `"0"` itself) whose value is below `2^32 - 1`? -/
def isArrayIndexKey (s : String) : Bool :=
  ! s.toList.isEmpty && s.toList.all (fun c => '0' ≤ c && c ≤ '9')
    && (s == "0" || ! (s.toList.head? == some '0'))
    && decide (digitsToNat s.toList < 2 ^ 32 - 1)

/-- Numeric value of an array-index key. -/
def arrayIndexVal (s : String) : Nat := digitsToNat s.toList

/-- Property insertion for `acc[key] = (acc[key] || 0) + 1`: bump the first
matching property in place, else append a new one. -/
def recordBump (acc : List (String × Nat)) (key : String) : List (String × Nat) :=
  match acc with
  | [] => [(key, 1)]
  | p :: rest =>
    if p.1 == key then (p.1, p.2 + 1) :: rest else p :: recordBump rest key

/-- The `clicks.reduce` accumulator of `getTopSources`
(urlShortener.ts lines 289-292), keyed by `source`, in insertion order. -/
def sourceCounts (clicks : List ClickData) : List (String × Nat) :=
  clicks.foldl (fun acc c => recordBump acc c.source) []

/-- `Object.entries` on a plain object whose properties were inserted in the
given order: array-index keys first in ascending numeric order, then the
rest in insertion order. -/
def objectEntries (props : List (String × Nat)) : List (String × Nat) :=
  stableSort (fun a b => decide (arrayIndexVal a.1 ≤ arrayIndexVal b.1))
      (props.filter fun p => isArrayIndexKey p.1)
    ++ props.filter fun p => ! isArrayIndexKey p.1

/-- `getTopSources` (urlShortener.ts lines 288-298): count clicks by source,
stably sort the entries descending by count, keep the first 5.  (The copy in
`Analytics.tsx` lines 98-109 is the same pipeline applied to the flattened
clicks of a list of links.) -/
def getTopSources (clicks : List ClickData) : List (String × Nat) :=
  (stableSort (fun a b => decide (b.2 ≤ a.2))
      (objectEntries (sourceCounts clicks))).take 5

/-- The flattening wrapper of `Analytics.tsx` (`getFilteredUrls().flatMap(url
=> url.clicks)` feeding the same pipeline). -/
def getTopSourcesOfUrls (urls : List ShortenedUrl) : List (String × Nat) :=
  getTopSources (urls.flatMap (·.clicks))

/-! ### Basic facts about the `Map` model -/

theorem mapGet_cons (p : String × ShortenedUrl) (rest : UrlMap) (k : String) :
    mapGet (p :: rest) k = if p.1 == k then some p.2 else mapGet rest k := by
  simp only [mapGet, List.find?_cons]
  cases p.1 == k <;> simp

theorem mapSet_cons (p : String × ShortenedUrl) (rest : UrlMap) (k : String)
    (v : ShortenedUrl) :
    mapSet (p :: rest) k v = if p.1 == k then (k, v) :: rest else p :: mapSet rest k v :=
  rfl

theorem mapHas_cons (p : String × ShortenedUrl) (rest : UrlMap) (k : String) :
    mapHas (p :: rest) k = (p.1 == k || mapHas rest k) := by
  simp [mapHas]

theorem mapDelete_cons (p : String × ShortenedUrl) (rest : UrlMap) (k : String) :
    mapDelete (p :: rest) k = if p.1 == k then rest else p :: mapDelete rest k :=
  rfl

theorem mapHas_eq_true_iff {m : UrlMap} {k : String} :
    mapHas m k = true ↔ k ∈ mapKeys m := by
  simp [mapHas, mapKeys, List.any_eq_true, List.mem_map, beq_iff_eq]

theorem mapHas_eq_false_iff {m : UrlMap} {k : String} :
    mapHas m k = false ↔ k ∉ mapKeys m := by
  simp [← mapHas_eq_true_iff]

theorem mapGet_eq_none_of_not_has {m : UrlMap} {k : String}
    (h : mapHas m k = false) : mapGet m k = none := by
  induction m with
  | nil => rfl
  | cons p rest ih =>
    rw [mapHas_cons, Bool.or_eq_false_iff] at h
    rw [mapGet_cons, h.1]
    simpa using ih h.2

theorem mapGet_isSome_of_has {m : UrlMap} {k : String}
    (h : mapHas m k = true) : (mapGet m k).isSome := by
  induction m with
  | nil => simp [mapHas] at h
  | cons p rest ih =>
    rw [mapHas_cons] at h
    rw [mapGet_cons]
    cases hk : p.1 == k with
    | true => simp
    | false => rw [hk] at h; simpa using ih (by simpa using h)

theorem mapGet_mapSet_self (m : UrlMap) (k : String) (v : ShortenedUrl) :
    mapGet (mapSet m k v) k = some v := by
  induction m with
  | nil => simp [mapSet, mapGet_cons]
  | cons p rest ih =>
    rw [mapSet_cons]
    cases hk : p.1 == k with
    | true => simp [mapGet_cons]
    | false => simpa [mapGet_cons, hk] using ih

theorem mapGet_mapSet_ne (m : UrlMap) {k c : String} (v : ShortenedUrl)
    (h : c ≠ k) : mapGet (mapSet m k v) c = mapGet m c := by
  induction m with
  | nil =>
    have : (k == c) = false := by simpa [beq_iff_eq] using fun e => h e.symm
    simp [mapSet, mapGet_cons, this]
  | cons p rest ih =>
    rw [mapSet_cons]
    cases hk : p.1 == k with
    | true =>
      rw [if_pos rfl]
      have hk' : p.1 = k := by simpa [beq_iff_eq] using hk
      have hkc : (k == c) = false := by simpa [beq_iff_eq] using fun e => h e.symm
      have hpc : (p.1 == c) = false := by rw [hk']; exact hkc
      rw [mapGet_cons, mapGet_cons, hkc, hpc]
      simp
    | false =>
      rw [if_neg Bool.false_ne_true, mapGet_cons, mapGet_cons]
      cases hpc : p.1 == c <;> simp [hpc, ih]

theorem mapSet_of_not_has {m : UrlMap} {k : String} (v : ShortenedUrl)
    (h : mapHas m k = false) : mapSet m k v = m ++ [(k, v)] := by
  induction m with
  | nil => simp [mapSet]
  | cons p rest ih =>
    rw [mapHas_cons, Bool.or_eq_false_iff] at h
    rw [mapSet_cons, h.1]
    simp [ih h.2]

theorem mapKeys_mapSet_of_has {m : UrlMap} {k : String} (v : ShortenedUrl)
    (h : mapHas m k = true) : mapKeys (mapSet m k v) = mapKeys m := by
  induction m with
  | nil => simp [mapHas] at h
  | cons p rest ih =>
    rw [mapHas_cons] at h
    rw [mapSet_cons]
    cases hk : p.1 == k with
    | true =>
      have hk' : p.1 = k := by simpa [beq_iff_eq] using hk
      simp [mapKeys, hk']
    | false =>
      rw [hk] at h
      rw [if_neg Bool.false_ne_true]
      have := ih (by simpa using h)
      simp only [mapKeys, List.map_cons] at this ⊢
      rw [this]

theorem mapDelete_sublist (m : UrlMap) (k : String) : List.Sublist (mapDelete m k) m := by
  induction m with
  | nil => simp [mapDelete]
  | cons p rest ih =>
    rw [mapDelete_cons]
    cases p.1 == k with
    | true => simp
    | false => simpa using ih.cons₂ p

/-! ### Concrete fixtures used by witnesses and counterexamples -/

/-- A fixed host environment: clock at epoch `1000`, constant random oracle
(index `0`, the character `a`), one generator attempt allowed. -/
def exEnv : Env :=
  ⟨1000, "City", "Agent", "hash1", "url_1", fun _ => ⟨0, by omega⟩, 1⟩

/-- A link created at epoch `0` that expires at epoch `100`. -/
def exUrl : ShortenedUrl :=
  ⟨"id1", "https://e.com/a", "abc", none, 0, 100, 30, [], false⟩

/-- A registry holding just `exUrl` under its code `abc`. -/
def exMap : UrlMap := [("abc", exUrl)]

/-- The record produced by `createShortenedUrl` in `exEnv` for the request
`{originalUrl := "https://example.com/x", validityMinutes := 0,
customShortCode := "abc"}`. -/
def exZeroValidityRecord : ShortenedUrl :=
  ⟨"url_1", "https://example.com/x", "abc", some "abc", 1000, 1801000, 30, [], false⟩

/-! ### C2: resolution and validation of `validityMinutes` -/

/-- C2 (amended): an omitted `validityMinutes` — and, because JavaScript `||`
treats the number `0` as falsy, also a supplied `0` — resolves to the default
30 minutes, behaving exactly like an explicit 30; a supplied value that is
negative or fractional fails with the `InvalidValidity` error and leaves the
registry unchanged and unpersisted; every successfully created link carries
the resolved validity. -/
theorem create_validity_resolution (env : Env) (m : UrlMap) (req : CreateUrlRequest) :
    (createShortenedUrl env m { req with validityMinutes := none }
      = createShortenedUrl env m { req with validityMinutes := some 30 })
    ∧ (createShortenedUrl env m { req with validityMinutes := some 0 }
      = createShortenedUrl env m { req with validityMinutes := some 30 })
    ∧ (∀ v : ℚ, v ≠ 0 → (v < 0 ∨ ¬ v.isInt = true) → isValidUrl req.originalUrl = true →
        createShortenedUrl env m { req with validityMinutes := some v }
          = some ⟨.error "Validity must be a positive integer representing minutes.", m, false⟩)
    ∧ (∀ out u, createShortenedUrl env m req = some out → out.result = .ok u →
        u.validityMinutes = resolvedValidity req.validityMinutes) := by
  refine ⟨?_, ?_, ?_, ?_⟩
  · simp [createShortenedUrl, resolvedValidity]
  · simp [createShortenedUrl, resolvedValidity]
  · intro v hne hbad hurl
    have hres : resolvedValidity (some v) = v := by simp [resolvedValidity, hne]
    rw [createShortenedUrl, if_neg (by simp [hurl])]
    simp only [hres]
    rw [if_pos]
    rcases hbad with hneg | hint
    · exact Or.inl (le_of_lt hneg)
    · exact Or.inr hint
  · intro out u hout hres
    by_cases hurl : isValidUrl req.originalUrl = true
    · by_cases hval : resolvedValidity req.validityMinutes ≤ 0 ∨
          ¬ (resolvedValidity req.validityMinutes).isInt = true
      · rw [createShortenedUrl, if_neg (by simp [hurl])] at hout
        simp only [if_pos hval, Option.some.injEq] at hout
        subst hout
        simp at hres
      · rw [createShortenedUrl, if_neg (by simp [hurl])] at hout
        simp only [if_neg hval] at hout
        rcases hsc : resolveShortCode env m req.customShortCode with _ | e
        · rw [hsc] at hout
          cases hout
        · rw [hsc] at hout
          rcases e with e | c
          · simp only [Option.some.injEq] at hout
            subst hout
            simp at hres
          · simp only [Option.some.injEq] at hout
            subst hout
            simp only [Except.ok.injEq] at hres
            subst hres
            rfl
    · rw [createShortenedUrl, if_pos (by simpa using hurl)] at hout
      simp only [Option.some.injEq] at hout
      subst hout
      simp at hres

/-- C2 witness: supplying `validityMinutes = -5` fails with the
`InvalidValidity` error. -/
theorem create_validity_resolution_witness :
    createShortenedUrl exEnv []
        ⟨"https://example.com/x", some (-5), some "abc"⟩
      = some ⟨.error "Validity must be a positive integer representing minutes.", [], false⟩ :=
  (create_validity_resolution exEnv []
      ⟨"https://example.com/x", some (-5), some "abc"⟩).2.2.1 (-5)
    (by norm_num) (Or.inl (by norm_num)) (by decide)

/-- C2 counterexample: the claim says a supplied `validityMinutes = 0` must
fail with `InvalidValidity`, but the JavaScript `||` default makes the call
succeed, creating a link with the default validity of 30 minutes. -/
theorem create_validityZero_succeeds :
    createShortenedUrl exEnv [] ⟨"https://example.com/x", some 0, some "abc"⟩
      = some ⟨.ok exZeroValidityRecord, [("abc", exZeroValidityRecord)], true⟩ := by
  decide

/-! ### C5: the lazy expiry flip in `getShortenedUrl` (resolve) -/

/-- C5 (amended): for a stored record with `isExpired = false`, resolve flips
the flag to `true`, persists, and returns the updated record exactly when
`expiresAt < now` strictly; at the exact instant `now = expiresAt` (and
before it) the record is returned unchanged and nothing is persisted. -/
theorem resolve_expiry_flip (now : Int) (m : UrlMap) (code : String)
    (u : ShortenedUrl) (hget : mapGet m code = some u) (hflag : u.isExpired = false) :
    (u.expiresAt < now →
      getShortenedUrl now m code =
        ⟨some { u with isExpired := true }, mapSet m code { u with isExpired := true }, true⟩)
    ∧ (now ≤ u.expiresAt → getShortenedUrl now m code = ⟨some u, m, false⟩) := by
  constructor
  · intro hlt
    rw [getShortenedUrl, hget]
    simp [hflag, hlt]
  · intro hle
    rw [getShortenedUrl, hget]
    simp [hflag, not_lt.mpr hle]

/-- C5 witness: one tick after expiry, resolving `exUrl` flips the flag,
persists, and returns the updated record. -/
theorem resolve_expiry_flip_witness :
    getShortenedUrl 101 exMap "abc" =
      ⟨some { exUrl with isExpired := true },
        mapSet exMap "abc" { exUrl with isExpired := true }, true⟩ :=
  (resolve_expiry_flip 101 exMap "abc" exUrl (by decide) (by decide)).1 (by decide)

/-- C5 counterexample: the claim says the flip happens when `now ≥ expiresAt`
including the exact-equality instant, but at `now = expiresAt = 100` the code
(`new Date(url.expiresAt) < now`, strict) does not flip, persist, or update
anything. -/
theorem resolve_no_flip_at_equality :
    exUrl.expiresAt = 100 ∧ exUrl.isExpired = false ∧
      getShortenedUrl 100 exMap "abc" = ⟨some exUrl, exMap, false⟩ := by
  decide

/-! ### C4: validation of the custom short code -/

/-- C4 (amended): with a valid URL and resolvable validity, a supplied
non-empty `customShortCode` fails with `InvalidShortCode` when it is not 3-20
alphanumeric characters, fails with `DuplicateShortCode` when well-formed but
already a key of the map, and otherwise the created link uses exactly the
supplied code; a supplied empty string, being falsy, is treated like an
absent custom code and a random code is generated instead of failing. -/
theorem create_custom_code_validation (env : Env) (m : UrlMap)
    (req : CreateUrlRequest) (c : String) (hc : req.customShortCode = some c)
    (hurl : isValidUrl req.originalUrl = true)
    (hval : ¬ (resolvedValidity req.validityMinutes ≤ 0 ∨
      ¬ (resolvedValidity req.validityMinutes).isInt = true)) :
    (c ≠ "" → isValidShortCode c = false →
      createShortenedUrl env m req
        = some ⟨.error "Invalid shortcode. Must be 3-20 alphanumeric characters.", m, false⟩)
    ∧ (c ≠ "" → isValidShortCode c = true → mapHas m c = true →
      createShortenedUrl env m req
        = some ⟨.error "Shortcode already exists. Please choose a different one.", m, false⟩)
    ∧ (c ≠ "" → isValidShortCode c = true → mapHas m c = false →
      ∃ u, createShortenedUrl env m req = some ⟨.ok u, mapSet m c u, true⟩
        ∧ u.shortCode = c)
    ∧ (c = "" → ∀ g, generateShortCode env.rnd env.fuel m = some g →
      ∃ u, createShortenedUrl env m req = some ⟨.ok u, mapSet m g u, true⟩
        ∧ u.shortCode = g) := by
  have hcreate : createShortenedUrl env m req =
      match resolveShortCode env m req.customShortCode with
      | none => none
      | some (.error e) => some ⟨.error e, m, false⟩
      | some (.ok shortCode) =>
        let u : ShortenedUrl :=
          { id := env.freshId
            originalUrl := req.originalUrl
            shortCode := shortCode
            customShortCode := req.customShortCode
            createdAt := env.now
            expiresAt := env.now + (resolvedValidity req.validityMinutes).num * 60 * 1000
            validityMinutes := resolvedValidity req.validityMinutes
            clicks := []
            isExpired := false }
        some ⟨.ok u, mapSet m shortCode u, true⟩ := by
    rw [createShortenedUrl, if_neg (by simp [hurl])]
    simp only [if_neg hval]
  refine ⟨?_, ?_, ?_, ?_⟩
  · intro hne hbad
    rw [hcreate, hc, resolveShortCode]
    rw [if_pos hne, if_pos (by simp [hbad])]
  · intro hne hgood hdup
    rw [hcreate, hc, resolveShortCode]
    rw [if_pos hne, if_neg (by simp [hgood]), if_pos (by simp [isShortCodeUnique, hdup])]
  · intro hne hgood hfresh
    rw [hcreate, hc, resolveShortCode]
    rw [if_pos hne, if_neg (by simp [hgood]), if_neg (by simp [isShortCodeUnique, hfresh])]
    exact ⟨_, rfl, rfl⟩
  · intro hempty g hg
    rw [hcreate, hc, resolveShortCode]
    rw [if_neg (by simp [hempty]), hg]
    exact ⟨_, rfl, rfl⟩

/-- C4 witness: the spec's Scenario C — a two-character custom code fails
with the `InvalidShortCode` error. -/
theorem create_custom_code_validation_witness :
    createShortenedUrl exEnv [] ⟨"https://example.com/x", some 30, some "ab"⟩
      = some ⟨.error "Invalid shortcode. Must be 3-20 alphanumeric characters.", [], false⟩ :=
  (create_custom_code_validation exEnv [] ⟨"https://example.com/x", some 30, some "ab"⟩
      "ab" rfl (by decide) (by decide)).1 (by decide) (by decide)

/-- The record produced by `createShortenedUrl` in `exEnv` when the custom
code is the empty string: the generated code `aaaaaa` is used. -/
def exEmptyCodeRecord : ShortenedUrl :=
  ⟨"url_1", "https://example.com/x", "aaaaaa", some "", 1000, 1801000, 30, [], false⟩

/-- C4 counterexample: the claim says an empty-string `customShortCode` must
fail with `InvalidShortCode`, but the truthiness test treats it as absent:
the call succeeds with a freshly generated code. -/
theorem create_emptyCustomCode_generates :
    createShortenedUrl exEnv [] ⟨"https://example.com/x", some 30, some ""⟩
      = some ⟨.ok exEmptyCodeRecord, [("aaaaaa", exEmptyCodeRecord)], true⟩ := by
  decide

/-! ### C1: the purge sweep `cleanupExpiredUrls` -/

theorem mapDelete_append {rest : UrlMap} (k : String) (v : ShortenedUrl)
    (l : UrlMap) (h : k ∉ mapKeys rest) :
    mapDelete (rest ++ (k, v) :: l) k = rest ++ l := by
  induction rest with
  | nil => simp [mapDelete_cons]
  | cons q rest' ih =>
    simp only [mapKeys, List.map_cons, List.mem_cons, not_or] at h
    rw [List.cons_append, mapDelete_cons, if_neg (by simp [beq_iff_eq]; exact Ne.symm h.1)]
    rw [ih (by simpa [mapKeys] using h.2)]
    simp

theorem cleanup_foldl (now : Int) :
    ∀ (l rest : UrlMap) (n : Nat), (mapKeys (rest ++ l)).Nodup →
      l.foldl (cleanupStep now) (rest ++ l, n) =
        (rest ++ l.filter (fun p => ! decide (p.2.expiresAt < now)),
          n + l.countP (fun p => decide (p.2.expiresAt < now)))
  | [], rest, n, _ => by simp
  | p :: l', rest, n, h => by
    rw [List.foldl_cons]
    by_cases hp : p.2.expiresAt < now
    · have hstep : cleanupStep now (rest ++ p :: l', n) p = (rest ++ l', n + 1) := by
        have hk : p.1 ∉ mapKeys rest := by
          simp only [mapKeys, List.map_append, List.map_cons] at h
          have := (List.nodup_append.mp h).2.2
          intro hmem
          exact this hmem (List.mem_cons_self _ _)
        rw [cleanupStep, if_pos hp]
        rw [show rest ++ p :: l' = rest ++ (p.1, p.2) :: l' from rfl]
        rw [mapDelete_append p.1 p.2 l' hk]
      rw [hstep]
      have hnd : (mapKeys (rest ++ l')).Nodup := by
        have hsub : List.Sublist (rest ++ l') (rest ++ p :: l') :=
          List.Sublist.append_left (List.sublist_cons_self p l') rest
        have := (hsub.map (fun x => x.1)).nodup (by simpa [mapKeys] using h)
        simpa [mapKeys] using this
      rw [cleanup_foldl now l' rest (n + 1) hnd]
      simp [hp, List.countP_cons]
      omega
    · have hstep : cleanupStep now (rest ++ p :: l', n) p = (rest ++ p :: l', n) := by
        rw [cleanupStep, if_neg hp]
      rw [hstep]
      have hre : rest ++ p :: l' = (rest ++ [p]) ++ l' := by simp
      rw [hre] at h ⊢
      rw [cleanup_foldl now l' (rest ++ [p]) n h]
      simp [hp, List.countP_cons]

/-- C1 (amended): for a registry with distinct keys (the `Map` invariant),
the purge sweep removes from the map exactly those records whose `expiresAt`
timestamp is strictly earlier than the current time — regardless of their
`isExpired` flag — counts them, and persists exactly when at least one record
was removed; but the method is `void` and returns no value (the count is only
logged), so a caller never receives the number of records removed. -/
theorem cleanup_purges_by_timestamp (now : Int) (m : UrlMap)
    (h : (mapKeys m).Nodup) :
    (cleanupExpiredUrls now m).urls = m.filter (fun p => ! decide (p.2.expiresAt < now))
    ∧ (cleanupExpiredUrls now m).cleanedCount
        = m.countP (fun p => decide (p.2.expiresAt < now))
    ∧ ((cleanupExpiredUrls now m).saved = true
        ↔ (cleanupExpiredUrls now m).cleanedCount ≠ 0)
    ∧ (cleanupExpiredUrls now m).ret = none := by
  have hfold := cleanup_foldl now m [] 0 (by simpa using h)
  simp only [List.nil_append] at hfold
  refine ⟨?_, ?_, ?_, rfl⟩
  · simp [cleanupExpiredUrls, hfold]
  · simp [cleanupExpiredUrls, hfold]
  · simp [cleanupExpiredUrls, hfold]

/-- C1 witness: purging the one-entry registry one tick after its record's
expiry removes that record, counts one removal, and persists. -/
theorem cleanup_purges_by_timestamp_witness :
    (cleanupExpiredUrls 101 exMap).urls
        = exMap.filter (fun p => ! decide (p.2.expiresAt < 101))
    ∧ (cleanupExpiredUrls 101 exMap).cleanedCount
        = exMap.countP (fun p => decide (p.2.expiresAt < 101))
    ∧ ((cleanupExpiredUrls 101 exMap).saved = true
        ↔ (cleanupExpiredUrls 101 exMap).cleanedCount ≠ 0)
    ∧ (cleanupExpiredUrls 101 exMap).ret = none :=
  cleanup_purges_by_timestamp 101 exMap (by decide)

/-- C1 counterexample: the claim says the purge returns the number of records
removed as an integer, but the `void` method removes one record here and
still returns nothing. -/
theorem cleanup_returns_no_count :
    (cleanupExpiredUrls 101 exMap).cleanedCount = 1
      ∧ (cleanupExpiredUrls 101 exMap).ret = none := by
  decide

/-! ### C3: every mutation persists, and the shape of the stored document -/

theorem cleanup_count_le (now : Int) :
    ∀ (l a : UrlMap) (n : Nat), n ≤ (l.foldl (cleanupStep now) (a, n)).2
  | [], _, n => le_refl n
  | p :: l', a, n => by
    rw [List.foldl_cons]
    by_cases hp : p.2.expiresAt < now
    · rw [show cleanupStep now (a, n) p = (mapDelete a p.1, n + 1) from by
        rw [cleanupStep, if_pos hp]]
      exact le_trans (Nat.le_succ n) (cleanup_count_le now l' _ (n + 1))
    · rw [show cleanupStep now (a, n) p = (a, n) from by rw [cleanupStep, if_neg hp]]
      exact cleanup_count_le now l' a n

theorem cleanup_unchanged_of_count (now : Int) :
    ∀ (l a : UrlMap) (n : Nat), (l.foldl (cleanupStep now) (a, n)).2 = n →
      (l.foldl (cleanupStep now) (a, n)).1 = a
  | [], _, _, _ => rfl
  | p :: l', a, n, h => by
    rw [List.foldl_cons] at h ⊢
    by_cases hp : p.2.expiresAt < now
    · exfalso
      rw [show cleanupStep now (a, n) p = (mapDelete a p.1, n + 1) from by
        rw [cleanupStep, if_pos hp]] at h
      have := cleanup_count_le now l' (mapDelete a p.1) (n + 1)
      omega
    · rw [show cleanupStep now (a, n) p = (a, n) from by
        rw [cleanupStep, if_neg hp]] at h ⊢
      exact cleanup_unchanged_of_count now l' a n h

theorem createShortenedUrl_saved_of_changed (env : Env) (m : UrlMap)
    (req : CreateUrlRequest) (out : CreateOut)
    (hout : createShortenedUrl env m req = some out) (hch : out.urls ≠ m) :
    out.saved = true := by
  by_cases hurl : isValidUrl req.originalUrl = true
  · by_cases hval : resolvedValidity req.validityMinutes ≤ 0 ∨
        ¬ (resolvedValidity req.validityMinutes).isInt = true
    · rw [createShortenedUrl, if_neg (by simp [hurl])] at hout
      simp only [if_pos hval, Option.some.injEq] at hout
      subst hout
      simp at hch
    · rw [createShortenedUrl, if_neg (by simp [hurl])] at hout
      simp only [if_neg hval] at hout
      rcases hsc : resolveShortCode env m req.customShortCode with _ | e
      · rw [hsc] at hout
        cases hout
      · rw [hsc] at hout
        rcases e with e | c
        · simp only [Option.some.injEq] at hout
          subst hout
          simp at hch
        · simp only [Option.some.injEq] at hout
          subst hout
          rfl
  · rw [createShortenedUrl, if_pos (by simpa using hurl)] at hout
    simp only [Option.some.injEq] at hout
    subst hout
    simp at hch

theorem getShortenedUrl_saved_of_changed (now : Int) (m : UrlMap) (code : String)
    (hch : (getShortenedUrl now m code).urls ≠ m) :
    (getShortenedUrl now m code).saved = true := by
  rw [getShortenedUrl] at hch ⊢
  rcases hg : mapGet m code with _ | u
  · rw [hg] at hch
    exact absurd rfl hch
  · rw [hg] at hch
    dsimp only at hch ⊢
    by_cases hcond : (decide (u.expiresAt < now) = true) ∧ ¬ u.isExpired = true
    · rw [if_pos hcond]
    · rw [if_neg hcond] at hch
      exact absurd rfl hch

theorem accessShortenedUrl_saved_of_changed (env : Env) (m : UrlMap)
    (code : String) (source : String)
    (hch : (accessShortenedUrl env m code source).urls ≠ m) :
    (accessShortenedUrl env m code source).saved = true := by
  rw [accessShortenedUrl] at hch ⊢
  rcases hr : (getShortenedUrl env.now m code).result with _ | u
  · rw [hr] at hch
    dsimp only at hch ⊢
    exact getShortenedUrl_saved_of_changed env.now m code hch
  · rw [hr] at hch
    dsimp only at hch ⊢
    by_cases he : u.isExpired = true
    · rw [if_pos he] at hch ⊢
      exact getShortenedUrl_saved_of_changed env.now m code hch
    · rw [if_neg he]

/-- C3 (amended): every state-changing operation persists the registry, and
the document written is a single JSON record whose `urls` field — not
`links`, as the spec's layout stated — holds the array of
`[shortCode, record]` pairs, alongside a `lastUpdated` timestamp. -/
theorem storage_document_shape (m : UrlMap) (ts : Int) :
    jsonLookup (saveToStorage m ts) "urls"
      = some (.arr (m.map fun p => .arr [.str p.1, encodeUrl p.2]))
    ∧ jsonLookup (saveToStorage m ts) "lastUpdated" = some (.num (ts : ℚ))
    ∧ jsonLookup (saveToStorage m ts) "links" = none
    ∧ (∀ env req out, createShortenedUrl env m req = some out →
        out.urls ≠ m → out.saved = true)
    ∧ (∀ now code, (getShortenedUrl now m code).urls ≠ m →
        (getShortenedUrl now m code).saved = true)
    ∧ (∀ env code source, (accessShortenedUrl env m code source).urls ≠ m →
        (accessShortenedUrl env m code source).saved = true)
    ∧ (∀ now, (cleanupExpiredUrls now m).urls ≠ m →
        (cleanupExpiredUrls now m).saved = true) := by
  refine ⟨by simp [saveToStorage, jsonLookup], by simp [saveToStorage, jsonLookup],
    by simp [saveToStorage, jsonLookup],
    fun env req out hout hch => createShortenedUrl_saved_of_changed env m req out hout hch,
    fun now code hch => getShortenedUrl_saved_of_changed now m code hch,
    fun env code source hch => accessShortenedUrl_saved_of_changed env m code source hch,
    fun now hch => ?_⟩
  rw [cleanupExpiredUrls] at hch ⊢
  by_cases hz : (m.foldl (cleanupStep now) (m, 0)).2 = 0
  · exact absurd (cleanup_unchanged_of_count now m m 0 hz) hch
  · have : 0 < (m.foldl (cleanupStep now) (m, 0)).2 := Nat.pos_of_ne_zero hz
    simpa using this

/-- C3 witness: the document written for the one-entry registry has its pair
array under `urls` and a `lastUpdated` timestamp, and the operations persist
exactly as stated. -/
theorem storage_document_shape_witness :
    jsonLookup (saveToStorage exMap 5) "urls"
      = some (.arr (exMap.map fun p => .arr [.str p.1, encodeUrl p.2]))
    ∧ jsonLookup (saveToStorage exMap 5) "lastUpdated" = some (.num ((5 : Int) : ℚ))
    ∧ jsonLookup (saveToStorage exMap 5) "links" = none
    ∧ (∀ env req out, createShortenedUrl env exMap req = some out →
        out.urls ≠ exMap → out.saved = true)
    ∧ (∀ now code, (getShortenedUrl now exMap code).urls ≠ exMap →
        (getShortenedUrl now exMap code).saved = true)
    ∧ (∀ env code source, (accessShortenedUrl env exMap code source).urls ≠ exMap →
        (accessShortenedUrl env exMap code source).saved = true)
    ∧ (∀ now, (cleanupExpiredUrls now exMap).urls ≠ exMap →
        (cleanupExpiredUrls now exMap).saved = true) :=
  storage_document_shape exMap 5

/-- C3 counterexample: the claim says the pair array is stored under the
field name `links`, but the document written by `saveToStorage` has no such
field — the array lives under `urls`. -/
theorem storage_document_has_no_links_field :
    jsonLookup (saveToStorage exMap 5) "links" = none
      ∧ (saveToStorage exMap 5)
          = .obj [("urls", .arr (exMap.map fun p => .arr [.str p.1, encodeUrl p.2])),
                  ("lastUpdated", .num ((5 : Int) : ℚ))] :=
  ⟨rfl, rfl⟩

/-! ### C9: persistence round trip -/

theorem decodeClick_encodeClick (c : ClickData) :
    decodeClick (encodeClick c) = some c := by
  rcases c with ⟨t, src, loc, ua, ip⟩
  cases ip <;> simp [encodeClick, decodeClick, jsonLookup, Rat.isInt]

theorem decodeClicks_map_encodeClick (l : List ClickData) :
    decodeClicks (l.map encodeClick) = some l := by
  induction l with
  | nil => rfl
  | cons c l ih => simp [decodeClicks, decodeClick_encodeClick, ih]

theorem decodeUrl_encodeUrl (u : ShortenedUrl) :
    decodeUrl (encodeUrl u) = some u := by
  rcases u with ⟨i, ou, sc, cc, ca, ea, vm, clicks, ie⟩
  cases cc <;>
    simp [encodeUrl, decodeUrl, jsonLookup, Rat.isInt, decodeClicks_map_encodeClick]

theorem decodePair_encodePair (p : String × ShortenedUrl) :
    decodePair (.arr [.str p.1, encodeUrl p.2]) = some p := by
  simp [decodePair, decodeUrl_encodeUrl]

theorem decodePairs_map_encode (m : UrlMap) :
    decodePairs (m.map fun p => Json.arr [.str p.1, encodeUrl p.2]) = some m := by
  induction m with
  | nil => rfl
  | cons p m ih => simp [decodePairs, decodePair_encodePair, ih]

theorem foldl_mapSet_eq_append :
    ∀ (l a : UrlMap), (mapKeys (a ++ l)).Nodup →
      l.foldl (fun m p => mapSet m p.1 p.2) a = a ++ l
  | [], a, _ => by simp
  | p :: l', a, h => by
    rw [List.foldl_cons]
    have hk : mapHas a p.1 = false := by
      rw [mapHas_eq_false_iff]
      simp only [mapKeys, List.map_append, List.map_cons] at h
      have := (List.nodup_append.mp h).2.2
      intro hmem
      exact this hmem (List.mem_cons_self _ _)
    rw [mapSet_of_not_has _ hk]
    have hre : a ++ p :: l' = (a ++ [(p.1, p.2)]) ++ l' := by simp
    rw [hre] at h
    rw [foldl_mapSet_eq_append l' (a ++ [(p.1, p.2)]) h]
    simp

theorem mapFromPairs_eq (m : UrlMap) (h : (mapKeys m).Nodup) :
    mapFromPairs m = m := by
  have := foldl_mapSet_eq_append m [] (by simpa using h)
  simpa [mapFromPairs] using this

/-- C9: serializing a registry map (with the `Map` invariant of distinct
keys) to the persisted document and reloading reproduces an identical map —
the same keys, the same field values, and the same click ordering. -/
theorem storage_round_trip (m : UrlMap) (ts : Int) (h : (mapKeys m).Nodup) :
    loadFromStorage (saveToStorage m ts) = some m := by
  have h1 : jsonLookup (saveToStorage m ts) "urls"
      = some (.arr (m.map fun p => .arr [.str p.1, encodeUrl p.2])) := by
    simp [saveToStorage, jsonLookup]
  rw [loadFromStorage, h1]
  simp [decodePairs_map_encode, mapFromPairs_eq m h]

/-- C9 witness: the round trip reproduces the concrete one-entry registry. -/
theorem storage_round_trip_witness :
    loadFromStorage (saveToStorage exMap 5) = some exMap :=
  storage_round_trip exMap 5 (by decide)

/-! ### C6: click accounting of `accessShortenedUrl` -/

/-- Exhaustive case analysis of one `access` call, read off the composition
of `getShortenedUrl` and the click-append step. -/
theorem access_cases (env : Env) (m : UrlMap) (code source : String) :
    (mapGet m code = none ∧
      accessShortenedUrl env m code source = ⟨.error "Short URL not found.", m, false⟩)
    ∨ (∃ u, mapGet m code = some u ∧ u.isExpired = false
        ∧ decide (u.expiresAt < env.now) = true
        ∧ accessShortenedUrl env m code source =
          ⟨.error "Short URL has expired.",
            mapSet m code { u with isExpired := true }, true⟩)
    ∨ (∃ u, mapGet m code = some u ∧ u.isExpired = true
        ∧ accessShortenedUrl env m code source =
          ⟨.error "Short URL has expired.", m, false⟩)
    ∨ (∃ u, mapGet m code = some u ∧ u.isExpired = false
        ∧ decide (u.expiresAt < env.now) = false
        ∧ accessShortenedUrl env m code source =
          ⟨.ok u.originalUrl,
            mapSet m code { u with clicks := u.clicks ++
              [⟨env.now, source, env.location, env.userAgent, some env.ipHash⟩] },
            true⟩) := by
  rcases hg : mapGet m code with _ | u
  · exact Or.inl ⟨rfl, by simp only [accessShortenedUrl, getShortenedUrl, hg]⟩
  · by_cases hflag : u.isExpired = true
    · refine Or.inr (Or.inr (Or.inl ⟨u, rfl, hflag, ?_⟩))
      simp only [accessShortenedUrl, getShortenedUrl, hg]
      rw [if_neg (by simp [hflag])]
      dsimp only
      rw [if_pos hflag]
    · have hflag' : u.isExpired = false := by
        cases h : u.isExpired
        · rfl
        · exact absurd h hflag
      by_cases htime : decide (u.expiresAt < env.now) = true
      · refine Or.inr (Or.inl ⟨u, rfl, hflag', htime, ?_⟩)
        simp only [accessShortenedUrl, getShortenedUrl, hg]
        rw [if_pos ⟨htime, hflag⟩]
        dsimp only
        rw [if_pos rfl]
      · refine Or.inr (Or.inr (Or.inr ⟨u, rfl, hflag', by simpa using htime, ?_⟩))
        simp only [accessShortenedUrl, getShortenedUrl, hg]
        rw [if_neg (by simp [htime])]
        dsimp only
        rw [if_neg (by simp [hflag'])]

/-- C6: on a successful `access` exactly one click event is appended to the
accessed record — its `clicks.length` grows by exactly 1 — and the original
URL is returned, with every other record's click sequence untouched; on any
failure (`NotFound` or `Expired`) the click sequence of every record is left
unchanged. -/
theorem access_click_accounting (env : Env) (m : UrlMap) (code source : String) :
    (∀ o, (accessShortenedUrl env m code source).result = .ok o →
      ∃ u, mapGet m code = some u ∧ u.isExpired = false ∧ o = u.originalUrl ∧
        (mapGet (accessShortenedUrl env m code source).urls code).map
            (fun r => r.clicks.length) = some (u.clicks.length + 1) ∧
        (∀ c', c' ≠ code →
          (mapGet (accessShortenedUrl env m code source).urls c').map (fun r => r.clicks)
            = (mapGet m c').map (fun r => r.clicks)))
    ∧ (∀ e, (accessShortenedUrl env m code source).result = .error e →
        ∀ c', (mapGet (accessShortenedUrl env m code source).urls c').map (fun r => r.clicks)
          = (mapGet m c').map (fun r => r.clicks)) := by
  rcases access_cases env m code source with
    ⟨hg, hacc⟩ | ⟨u, hg, hflag, htime, hacc⟩ | ⟨u, hg, hflag, hacc⟩ |
      ⟨u, hg, hflag, htime, hacc⟩
  · constructor
    · intro o ho
      rw [hacc] at ho
      simp at ho
    · intro e he c'
      rw [hacc]
  · constructor
    · intro o ho
      rw [hacc] at ho
      simp at ho
    · intro e he c'
      rw [hacc]
      by_cases hc : c' = code
      · subst hc
        rw [mapGet_mapSet_self, hg]
        rfl
      · rw [mapGet_mapSet_ne m _ hc]
  · constructor
    · intro o ho
      rw [hacc] at ho
      simp at ho
    · intro e he c'
      rw [hacc]
  · constructor
    · intro o ho
      rw [hacc] at ho
      simp only [Except.ok.injEq] at ho
      refine ⟨u, hg, hflag, ho.symm, ?_, ?_⟩
      · rw [hacc]
        rw [mapGet_mapSet_self]
        simp
      · intro c' hc
        rw [hacc, mapGet_mapSet_ne m _ hc]
    · intro e he
      rw [hacc] at he
      simp at he

/-- C6 witness: accessing the live link `abc` before its expiry appends one
click and returns its original URL. -/
theorem access_click_accounting_witness :
    ∃ u, mapGet exMap "abc" = some u ∧ u.isExpired = false
      ∧ "https://e.com/a" = u.originalUrl
      ∧ (mapGet (accessShortenedUrl { exEnv with now := 50 } exMap "abc" "direct").urls
            "abc").map (fun r => r.clicks.length) = some (u.clicks.length + 1)
      ∧ (∀ c', c' ≠ "abc" →
          (mapGet (accessShortenedUrl { exEnv with now := 50 } exMap "abc" "direct").urls
              c').map (fun r => r.clicks)
            = (mapGet exMap c').map (fun r => r.clicks)) :=
  (access_click_accounting { exEnv with now := 50 } exMap "abc" "direct").1
    "https://e.com/a" (by decide)

/-! ### C7: `isExpired` is monotone across all registry operations -/

theorem genLoop_fresh (rnd : Nat → Fin 62) (m : UrlMap) :
    ∀ (fuel k : Nat) (c : String), genLoop rnd m k fuel = some c →
      mapHas m c = false
  | 0, _, _, h => by cases h
  | fuel + 1, k, c, h => by
    rw [genLoop] at h
    by_cases hh : mapHas m (attemptString rnd k) = true
    · rw [if_pos hh] at h
      exact genLoop_fresh rnd m fuel (k + 1) c h
    · rw [if_neg hh] at h
      cases h
      simpa using hh

theorem generateShortCode_fresh {rnd : Nat → Fin 62} {fuel : Nat} {m : UrlMap}
    {c : String} (h : generateShortCode rnd fuel m = some c) : mapHas m c = false :=
  genLoop_fresh rnd m fuel 0 c h

theorem resolveShortCode_ok_fresh {env : Env} {m : UrlMap} {custom : Option String}
    {g : String} (h : resolveShortCode env m custom = some (.ok g)) :
    mapHas m g = false := by
  rcases custom with _ | c
  · rw [resolveShortCode] at h
    rcases hgen : generateShortCode env.rnd env.fuel m with _ | c
    · rw [hgen] at h; cases h
    · rw [hgen] at h
      simp only [Option.map_some', Option.some.injEq, Except.ok.injEq] at h
      subst h
      exact generateShortCode_fresh hgen
  · rw [resolveShortCode] at h
    by_cases hne : c ≠ ""
    · rw [if_pos hne] at h
      by_cases hv : isValidShortCode c = true
      · rw [if_neg (by simp [hv])] at h
        by_cases hu : isShortCodeUnique m c = true
        · rw [if_neg (by simp [hu])] at h
          simp only [Option.some.injEq, Except.ok.injEq] at h
          subst h
          simpa [isShortCodeUnique] using hu
        · rw [if_pos (by simpa using hu)] at h
          cases h
      · rw [if_pos (by simpa using hv)] at h
        cases h
    · rw [if_neg hne] at h
      rcases hgen : generateShortCode env.rnd env.fuel m with _ | c'
      · rw [hgen] at h; cases h
      · rw [hgen] at h
        simp only [Option.map_some', Option.some.injEq, Except.ok.injEq] at h
        subst h
        exact generateShortCode_fresh hgen

theorem mapHas_of_mapGet {m : UrlMap} {code : String} {u : ShortenedUrl}
    (h : mapGet m code = some u) : mapHas m code = true := by
  cases hh : mapHas m code
  · rw [mapGet_eq_none_of_not_has hh] at h
    cases h
  · rfl

theorem mapGet_mem {m : UrlMap} {code : String} {u : ShortenedUrl}
    (h : mapGet m code = some u) : (code, u) ∈ m := by
  rw [mapGet] at h
  rcases hf : m.find? (fun p => p.1 == code) with _ | q
  · rw [hf] at h; cases h
  · rw [hf] at h
    simp only [Option.map_some', Option.some.injEq] at h
    have hq : q ∈ m := List.mem_of_find?_eq_some hf
    have hqk : (q.1 == code) = true := by simpa using List.find?_some hf
    rcases q with ⟨qk, qv⟩
    simp only [beq_iff_eq] at hqk
    subst hqk
    simp only at h
    subst h
    exact hq

theorem mem_mapGet_nodup {m : UrlMap} (hnd : (mapKeys m).Nodup)
    {code : String} {u u' : ShortenedUrl}
    (hmem : (code, u') ∈ m) (hget : mapGet m code = some u) : u' = u := by
  induction m with
  | nil => cases hmem
  | cons p rest ih =>
    rw [mapGet_cons] at hget
    have hnd' := hnd
    simp only [mapKeys, List.map_cons, List.nodup_cons] at hnd'
    rcases List.mem_cons.mp hmem with heq | hmem'
    · subst heq
      simp only [beq_self_eq_true, if_pos] at hget
      exact (Option.some.injEq _ _ ▸ hget).symm ▸ rfl
    · by_cases hk : (p.1 == code) = true
      · exfalso
        have hcode : code ∈ List.map (fun x => x.1) rest :=
          List.mem_map.mpr ⟨(code, u'), hmem', rfl⟩
        have hp1 : p.1 = code := by simpa [beq_iff_eq] using hk
        exact hnd'.1 (hp1 ▸ hcode)
      · rw [if_neg hk] at hget
        exact ih (by simpa [mapKeys] using hnd'.2) hmem' hget

/-- Create either leaves the map unchanged (any failure) or inserts a record
under a key that was not present (custom codes pass the uniqueness check,
generated codes satisfy the loop's exit condition). -/
theorem createShortenedUrl_out_cases (env : Env) (m : UrlMap)
    (req : CreateUrlRequest) (out : CreateOut)
    (hout : createShortenedUrl env m req = some out) :
    out.urls = m ∨ ∃ g rec, mapHas m g = false ∧ out.urls = mapSet m g rec := by
  by_cases hurl : isValidUrl req.originalUrl = true
  · by_cases hval : resolvedValidity req.validityMinutes ≤ 0 ∨
        ¬ (resolvedValidity req.validityMinutes).isInt = true
    · rw [createShortenedUrl, if_neg (by simp [hurl])] at hout
      simp only [if_pos hval, Option.some.injEq] at hout
      subst hout
      exact Or.inl rfl
    · rw [createShortenedUrl, if_neg (by simp [hurl])] at hout
      simp only [if_neg hval] at hout
      rcases hsc : resolveShortCode env m req.customShortCode with _ | e
      · rw [hsc] at hout
        cases hout
      · rw [hsc] at hout
        rcases e with e | g
        · simp only [Option.some.injEq] at hout
          subst hout
          exact Or.inl rfl
        · simp only [Option.some.injEq] at hout
          subst hout
          exact Or.inr ⟨g, _, resolveShortCode_ok_fresh hsc, rfl⟩
  · rw [createShortenedUrl, if_pos (by simpa using hurl)] at hout
    simp only [Option.some.injEq] at hout
    subst hout
    exact Or.inl rfl

/-- Resolve either leaves the map unchanged or rewrites the resolved record
in place with its `isExpired` flag set. -/
theorem getShortenedUrl_urls_cases (now : Int) (m : UrlMap) (code' : String) :
    (getShortenedUrl now m code').urls = m
    ∨ (∃ v, mapGet m code' = some v ∧ v.isExpired = false ∧
        (getShortenedUrl now m code').urls = mapSet m code' { v with isExpired := true }) := by
  rw [getShortenedUrl]
  rcases hg : mapGet m code' with _ | v
  · exact Or.inl rfl
  · dsimp only
    by_cases hcond : (decide (v.expiresAt < now) = true) ∧ ¬ v.isExpired = true
    · refine Or.inr ⟨v, rfl, ?_, ?_⟩
      · cases h : v.isExpired
        · rfl
        · exact absurd h hcond.2
      · rw [if_pos hcond]
    · rw [if_neg hcond]
      exact Or.inl rfl

/-- The registry operations of the claim — create, resolve, access, list and
purgeExpired — with the host inputs each call consumes. -/
inductive RegOp where
  | create (env : Env) (req : CreateUrlRequest)
  | resolve (now : Int) (code : String)
  | access (env : Env) (code : String) (source : String)
  | listAll
  | purge (now : Int)

/-- The registry map after one operation (`list` reads only; a create whose
generator loop does not exit within its attempt bound changes nothing). -/
def applyOp (m : UrlMap) : RegOp → UrlMap
  | .create env req =>
    match createShortenedUrl env m req with
    | some out => out.urls
    | none => m
  | .resolve now code => (getShortenedUrl now m code).urls
  | .access env code source => (accessShortenedUrl env m code source).urls
  | .listAll => m
  | .purge now => (cleanupExpiredUrls now m).urls

/-- The registry map after a sequence of operations. -/
def applyOps (m : UrlMap) : List RegOp → UrlMap
  | [] => m
  | op :: ops => applyOps (applyOp m op) ops

/-- One step of any operation preserves the distinct-keys invariant and the
expiry flag of every record that is still present. -/
theorem applyOp_step (m : UrlMap) (op : RegOp) (hnd : (mapKeys m).Nodup) :
    (mapKeys (applyOp m op)).Nodup ∧
    ∀ code u u', mapGet m code = some u → u.isExpired = true →
      mapGet (applyOp m op) code = some u' → u'.isExpired = true := by
  have unchanged : ∀ m' : UrlMap, m' = m → (mapKeys m').Nodup ∧
      ∀ code u u', mapGet m code = some u → u.isExpired = true →
        mapGet m' code = some u' → u'.isExpired = true := by
    rintro _ rfl
    refine ⟨hnd, fun code u u' h1 h2 h3 => ?_⟩
    rw [h1] at h3
    cases h3
    exact h2
  have flipCase : ∀ (code' : String) (v : ShortenedUrl) (m' : UrlMap),
      mapGet m code' = some v → m' = mapSet m code' { v with isExpired := true } →
      (mapKeys m').Nodup ∧
      ∀ code u u', mapGet m code = some u → u.isExpired = true →
        mapGet m' code = some u' → u'.isExpired = true := by
    rintro code' v _ hv rfl
    constructor
    · rw [mapKeys_mapSet_of_has _ (mapHas_of_mapGet hv)]
      exact hnd
    · intro code u u' h1 h2 h3
      by_cases hc : code = code'
      · subst hc
        rw [mapGet_mapSet_self] at h3
        cases h3
        rfl
      · rw [mapGet_mapSet_ne m _ hc] at h3
        rw [h1] at h3
        cases h3
        exact h2
  cases op with
  | create env req =>
    rw [applyOp]
    rcases hout : createShortenedUrl env m req with _ | out
    · exact unchanged m rfl
    · rcases createShortenedUrl_out_cases env m req out hout with hu | ⟨g, rec, hfresh, hu⟩
      · exact unchanged _ hu
      · dsimp only
        rw [hu]
        constructor
        · rw [mapSet_of_not_has _ hfresh]
          have hg : g ∉ mapKeys m := mapHas_eq_false_iff.mp hfresh
          simp only [mapKeys, List.map_append, List.map_cons, List.map_nil]
          rw [List.nodup_append]
          refine ⟨hnd, List.nodup_singleton g, ?_⟩
          simp only [List.disjoint_singleton]
          exact hg
        · intro code u u' h1 h2 h3
          have hne : code ≠ g := by
            intro h
            subst h
            rw [mapHas_of_mapGet h1] at hfresh
            cases hfresh
          rw [mapGet_mapSet_ne m _ hne, h1] at h3
          cases h3
          exact h2
  | resolve now code' =>
    rw [applyOp]
    rcases getShortenedUrl_urls_cases now m code' with hu | ⟨v, hv, _, hu⟩
    · exact unchanged _ hu
    · exact flipCase code' v _ hv hu
  | access env code' source =>
    rw [applyOp]
    rcases access_cases env m code' source with
      ⟨_, hacc⟩ | ⟨v, hv, hvflag, _, hacc⟩ | ⟨v, _, _, hacc⟩ | ⟨v, hv, hvflag, _, hacc⟩
    · exact unchanged _ (by rw [hacc])
    · exact flipCase code' v _ hv (by rw [hacc])
    · exact unchanged _ (by rw [hacc])
    · rw [hacc]
      constructor
      · rw [mapKeys_mapSet_of_has _ (mapHas_of_mapGet hv)]
        exact hnd
      · intro code u u' h1 h2 h3
        by_cases hc : code = code'
        · subst hc
          rw [h1] at hv
          cases hv
          rw [hvflag] at h2
          cases h2
        · rw [mapGet_mapSet_ne m _ hc] at h3
          rw [h1] at h3
          cases h3
          exact h2
  | listAll => exact unchanged m rfl
  | purge now =>
    rw [applyOp]
    have hfold := cleanup_foldl now m [] 0 (by simpa using hnd)
    simp only [List.nil_append] at hfold
    have hurls : (cleanupExpiredUrls now m).urls
        = m.filter (fun p => ! decide (p.2.expiresAt < now)) := by
      simp [cleanupExpiredUrls, hfold]
    rw [hurls]
    constructor
    · exact ((List.filter_sublist m).map (fun x => x.1)).nodup
        (by simpa [mapKeys] using hnd)
    · intro code u u' h1 h2 h3
      have hmem : (code, u') ∈ m := List.mem_of_mem_filter (mapGet_mem h3)
      have := mem_mapGet_nodup hnd hmem h1
      subst this
      exact h2

/-- C7: over every sequence of registry operations (create, resolve, access,
list, purgeExpired) starting from a well-formed registry, once a record's
`isExpired` is `true`, every later state in which its short code is still
present maps that code to a record with `isExpired = true` — the flag is
never reset while the record remains in the map. -/
theorem isExpired_monotone : ∀ (ops : List RegOp) (m : UrlMap) (code : String),
    (mapKeys m).Nodup → ∀ u, mapGet m code = some u → u.isExpired = true →
    (∀ n : Nat, mapGet (applyOps m (ops.take n)) code ≠ none) →
    ∀ u', mapGet (applyOps m ops) code = some u' → u'.isExpired = true
  | [], m, code, _, u, hget, hexp, _, u', hfin => by
    rw [applyOps] at hfin
    rw [hget] at hfin
    cases hfin
    exact hexp
  | op :: ops, m, code, hnd, u, hget, hexp, hstay, u', hfin => by
    rcases hmid : mapGet (applyOp m op) code with _ | u''
    · exfalso
      have h1 := hstay 1
      simp only [List.take_succ_cons, List.take_zero] at h1
      rw [applyOps, applyOps] at h1
      exact h1 hmid
    · have hstep := applyOp_step m op hnd
      have hexp'' := hstep.2 code u u'' hget hexp hmid
      have hstay' : ∀ n : Nat, mapGet (applyOps (applyOp m op) (ops.take n)) code ≠ none := by
        intro n
        have := hstay (n + 1)
        rw [List.take_succ_cons, applyOps] at this
        exact this
      exact isExpired_monotone ops (applyOp m op) code hstep.1 u'' hmid hexp''
        hstay' u' (by rwa [applyOps] at hfin)

/-- C7 witness: a resolve after expiry leaves the already-expired record's
flag `true`. -/
theorem isExpired_monotone_witness :
    ({ exUrl with isExpired := true } : ShortenedUrl).isExpired = true :=
  isExpired_monotone [RegOp.resolve 150 "abc"]
    [("abc", { exUrl with isExpired := true })] "abc" (by decide)
    { exUrl with isExpired := true } (by decide) (by decide)
    (fun n => by
      cases n with
      | zero => decide
      | succ k =>
        rw [List.take_succ_cons, List.take_nil]
        decide)
    { exUrl with isExpired := true } (by decide)

/-! ### C8: the code generator -/

theorem attemptString_length (rnd : Nat → Fin 62) (k : Nat) :
    (attemptString rnd k).length = 6 := by
  simp [attemptString, String.length]

set_option maxRecDepth 16384 in
theorem charAt_alnum : ∀ i : Fin 62, isAlphanumericChar (charAt i) = true := by
  decide

theorem attemptString_alnum (rnd : Nat → Fin 62) (k : Nat) :
    (attemptString rnd k).toList.all isAlphanumericChar = true := by
  rw [attemptString]
  rw [show (String.mk ((List.range 6).map fun i => charAt (rnd (6 * k + i)))).toList
      = (List.range 6).map fun i => charAt (rnd (6 * k + i)) from rfl]
  rw [List.all_eq_true]
  intro x hx
  rcases List.mem_map.mp hx with ⟨i, _, rfl⟩
  exact charAt_alnum _

theorem genLoop_attempt (rnd : Nat → Fin 62) (m : UrlMap) :
    ∀ (fuel k : Nat) (c : String), genLoop rnd m k fuel = some c →
      ∃ k', c = attemptString rnd k'
  | 0, _, _, h => by cases h
  | fuel + 1, k, c, h => by
    rw [genLoop] at h
    by_cases hh : mapHas m (attemptString rnd k) = true
    · rw [if_pos hh] at h
      exact genLoop_attempt rnd m fuel (k + 1) c h
    · rw [if_neg hh] at h
      cases h
      exact ⟨k, rfl⟩

/-- The random stream that plays out a fixed 6-character code forever. -/
def indexStream (v : Fin 6 → Fin 62) : Nat → Fin 62 :=
  fun n => v ⟨n % 6, Nat.mod_lt n (by norm_num)⟩

/-- The 6-character code spelt by an index vector. -/
def codeOf (v : Fin 6 → Fin 62) : String := attemptString (indexStream v) 0

set_option maxRecDepth 16384 in
theorem charAt_injective : ∀ a b : Fin 62, charAt a = charAt b → a = b := by
  decide

theorem codeOf_injective : Function.Injective codeOf := by
  intro v w h
  have hdata : ((List.range 6).map fun i => charAt (indexStream v (6 * 0 + i)))
      = ((List.range 6).map fun i => charAt (indexStream w (6 * 0 + i))) :=
    congrArg String.data h
  rw [show List.range 6 = [0, 1, 2, 3, 4, 5] from rfl] at hdata
  simp only [List.map_cons, List.map_nil, List.cons.injEq, and_true] at hdata
  funext i
  rcases i with ⟨i, hi⟩
  interval_cases i
  · exact charAt_injective _ _ hdata.1
  · exact charAt_injective _ _ hdata.2.1
  · exact charAt_injective _ _ hdata.2.2.1
  · exact charAt_injective _ _ hdata.2.2.2.1
  · exact charAt_injective _ _ hdata.2.2.2.2.1
  · exact charAt_injective _ _ hdata.2.2.2.2.2

/-- The full 62^6 code space, as the image of all index vectors. -/
def allCodes : Finset String :=
  Finset.image codeOf Finset.univ

theorem allCodes_card : allCodes.card = 62 ^ 6 := by
  rw [allCodes, Finset.card_image_of_injective _ codeOf_injective, Finset.card_univ,
    Fintype.card_fun, Fintype.card_fin, Fintype.card_fin]

set_option maxRecDepth 16384 in
/-- C8: for every registry whose key set is strictly smaller than the full
62^6 code space, (a) whatever the random stream, any code the generator
returns is exactly 6 alphanumeric characters and is not a key of the map,
and (b) some random stream makes the generator succeed within a single
attempt — the loop's exit is always realizable. -/
theorem generateShortCode_spec (m : UrlMap)
    (hcard : ((mapKeys m).toFinset).card < 62 ^ 6) :
    (∀ (rnd : Nat → Fin 62) (fuel : Nat) (c : String),
      generateShortCode rnd fuel m = some c →
        c.length = 6 ∧ c.toList.all isAlphanumericChar = true ∧ mapHas m c = false)
    ∧ (∃ (rnd : Nat → Fin 62) (c : String), generateShortCode rnd 1 m = some c) := by
  constructor
  · intro rnd fuel c h
    obtain ⟨k', rfl⟩ := genLoop_attempt rnd m fuel 0 c h
    exact ⟨attemptString_length rnd k', attemptString_alnum rnd k',
      genLoop_fresh rnd m fuel 0 _ h⟩
  · have hns : ¬ allCodes ⊆ (mapKeys m).toFinset := by
      intro hsub
      have := Finset.card_le_card hsub
      rw [allCodes_card] at this
      omega
    obtain ⟨c, hcmem, hcnot⟩ := Finset.not_subset.mp hns
    obtain ⟨v, _, rfl⟩ := Finset.mem_image.mp hcmem
    refine ⟨indexStream v, codeOf v, ?_⟩
    have hfresh : mapHas m (codeOf v) = false :=
      mapHas_eq_false_iff.mpr (fun hmem => hcnot (List.mem_toFinset.mpr hmem))
    rw [generateShortCode, genLoop]
    rw [show attemptString (indexStream v) 0 = codeOf v from rfl]
    rw [if_neg (by simp [hfresh])]

/-- C8 witness: for the empty registry the generator's guarantees hold, and
the constant stream on index 0 yields a code in one attempt. -/
theorem generateShortCode_spec_witness :
    (∀ (rnd : Nat → Fin 62) (fuel : Nat) (c : String),
      generateShortCode rnd fuel [] = some c →
        c.length = 6 ∧ c.toList.all isAlphanumericChar = true ∧ mapHas [] c = false)
    ∧ (∃ (rnd : Nat → Fin 62) (c : String), generateShortCode rnd 1 [] = some c) :=
  generateShortCode_spec [] (by norm_num [mapKeys])

/-! ### C10: `getTopSources` -/

theorem insertS_perm {α : Type} (le : α → α → Bool) (x : α) :
    ∀ l : List α, (insertS le x l).Perm (x :: l)
  | [] => List.Perm.refl _
  | y :: ys => by
    rw [insertS]
    by_cases h : (le y x && ! le x y) = true
    · rw [if_pos h]
      exact ((insertS_perm le x ys).cons y).trans (List.Perm.swap x y ys)
    · rw [if_neg h]

theorem stableSort_perm {α : Type} (le : α → α → Bool) :
    ∀ l : List α, (stableSort le l).Perm l
  | [] => List.Perm.refl _
  | x :: xs => (insertS_perm le x _).trans ((stableSort_perm le xs).cons x)

theorem insertS_pairwise {α : Type} (le : α → α → Bool)
    (htrans : ∀ a b c, le a b = true → le b c = true → le a c = true)
    (htotal : ∀ a b, le a b = true ∨ le b a = true) (x : α) (l : List α)
    (hl : l.Pairwise fun a b => le a b = true) :
    (insertS le x l).Pairwise fun a b => le a b = true := by
  induction l with
  | nil => simp [insertS]
  | cons y ys ih =>
    rw [insertS]
    rcases List.pairwise_cons.mp hl with ⟨hy, hys⟩
    by_cases h : (le y x && ! le x y) = true
    · rw [if_pos h]
      rw [List.pairwise_cons]
      refine ⟨fun z hz => ?_, ih hys⟩
      rcases List.mem_cons.mp ((insertS_perm le x ys).mem_iff.mp hz) with rfl | hz'
      · exact ((Bool.and_eq_true _ _).mp h).1
      · exact hy z hz'
    · rw [if_neg h]
      have hxy : le x y = true := by
        rcases htotal x y with h1 | h1
        · exact h1
        · by_cases h2 : le x y = true
          · exact h2
          · exact absurd (by rw [h1]; simp [h2]) h
      rw [List.pairwise_cons]
      refine ⟨fun z hz => ?_, hl⟩
      rcases List.mem_cons.mp hz with rfl | hz'
      · exact hxy
      · exact htrans x y z hxy (hy z hz')

theorem stableSort_pairwise {α : Type} (le : α → α → Bool)
    (htrans : ∀ a b c, le a b = true → le b c = true → le a c = true)
    (htotal : ∀ a b, le a b = true ∨ le b a = true) :
    ∀ l : List α, (stableSort le l).Pairwise fun a b => le a b = true
  | [] => by simp [stableSort]
  | x :: xs => by
    rw [stableSort]
    exact insertS_pairwise le htrans htotal x _
      (stableSort_pairwise le htrans htotal xs)

theorem insertS_filter_pos {α : Type} (le : α → α → Bool) (p : α → Bool)
    (x : α) (l : List α) (hx : p x = true)
    (hle : ∀ y ∈ l, p y = true → le x y = true) :
    (insertS le x l).filter p = x :: l.filter p := by
  induction l with
  | nil => simp [insertS, hx]
  | cons y ys ih =>
    rw [insertS]
    by_cases h : (le y x && ! le x y) = true
    · rw [if_pos h]
      have hpy : p y = false := by
        cases hpy : p y
        · rfl
        · exfalso
          have hxy := hle y (List.mem_cons_self y ys) hpy
          have h' := (Bool.and_eq_true _ _).mp h
          rw [hxy] at h'
          simp at h'
      rw [List.filter_cons_of_neg (by simp [hpy]),
        List.filter_cons_of_neg (by simp [hpy])]
      exact ih fun z hz hp => hle z (List.mem_cons_of_mem y hz) hp
    · rw [if_neg h]
      rw [List.filter_cons_of_pos (by simp [hx])]

theorem insertS_filter_neg {α : Type} (le : α → α → Bool) (p : α → Bool)
    (x : α) (l : List α) (hx : p x = false) :
    (insertS le x l).filter p = l.filter p := by
  induction l with
  | nil => simp [insertS, hx]
  | cons y ys ih =>
    rw [insertS]
    by_cases h : (le y x && ! le x y) = true
    · rw [if_pos h]
      simp only [List.filter_cons, ih]
    · rw [if_neg h]
      rw [List.filter_cons_of_neg (by simp [hx])]

theorem stableSort_filter_class {α : Type} (le : α → α → Bool) (p : α → Bool)
    (hclass : ∀ a b, p a = true → p b = true → le a b = true) :
    ∀ l : List α, (stableSort le l).filter p = l.filter p
  | [] => rfl
  | x :: xs => by
    rw [stableSort]
    by_cases hx : p x = true
    · rw [insertS_filter_pos le p x _ hx
        (fun y hy hpy => hclass x y hx hpy),
        stableSort_filter_class le p hclass xs, List.filter_cons_of_pos hx]
    · have hx' : p x = false := by simpa using hx
      rw [insertS_filter_neg le p x _ hx',
        stableSort_filter_class le p hclass xs,
        List.filter_cons_of_neg (by simp [hx'])]

/-- The number of clicks carrying a given source tag. -/
def countSource (clicks : List ClickData) (s : String) : Nat :=
  clicks.countP fun c => c.source == s

/-- Property read on the counts object (`acc[s]`). -/
def countsGet (acc : List (String × Nat)) (s : String) : Option Nat :=
  (acc.find? fun p => p.1 == s).map (·.2)

theorem countsGet_cons (q : String × Nat) (rest : List (String × Nat)) (s : String) :
    countsGet (q :: rest) s = if q.1 == s then some q.2 else countsGet rest s := by
  simp only [countsGet, List.find?_cons]
  cases q.1 == s <;> simp

theorem countsGet_recordBump :
    ∀ (acc : List (String × Nat)) (k s : String),
      countsGet (recordBump acc k) s =
        if s = k then some ((countsGet acc k).getD 0 + 1) else countsGet acc s
  | [], k, s => by
    by_cases hs : s = k
    · subst hs
      simp [recordBump, countsGet_cons, countsGet]
    · have hks : (k == s) = false := by
        simp only [beq_eq_false_iff_ne, ne_eq]
        exact fun e => hs e.symm
      simp [recordBump, countsGet_cons, hks, hs, countsGet]
  | q :: rest, k, s => by
    rw [show recordBump (q :: rest) k
        = if q.1 == k then (q.1, q.2 + 1) :: rest else q :: recordBump rest k from rfl]
    by_cases hq : (q.1 == k) = true
    · rw [if_pos hq]
      have hq' : q.1 = k := by simpa [beq_iff_eq] using hq
      by_cases hs : s = k
      · subst hs
        rw [if_pos rfl, countsGet_cons, countsGet_cons, hq']
        simp
      · rw [if_neg hs, countsGet_cons, countsGet_cons]
        have h1 : (q.1 == s) = false := by
          rw [hq']
          simp only [beq_eq_false_iff_ne, ne_eq]
          exact fun e => hs e.symm
        rw [h1]
        simp
    · have hq0 : (q.1 == k) = false := by simpa using hq
      rw [if_neg hq]
      simp only [countsGet_cons, hq0, Bool.false_eq_true, if_false]
      by_cases hqs : (q.1 == s) = true
      · have hq' : q.1 = s := by simpa [beq_iff_eq] using hqs
        have hs : ¬ s = k := fun e => hq (by rw [hq', e]; simp)
        simp only [hqs, if_true, if_neg hs]
      · have hqs' : (q.1 == s) = false := by simpa using hqs
        simp only [hqs', Bool.false_eq_true, if_false]
        exact countsGet_recordBump rest k s

theorem recordBump_keys (acc : List (String × Nat)) (k : String) :
    (recordBump acc k).map (·.1) =
      if k ∈ acc.map (·.1) then acc.map (·.1) else acc.map (·.1) ++ [k] := by
  induction acc with
  | nil => simp [recordBump]
  | cons q rest ih =>
    rw [show recordBump (q :: rest) k
        = if q.1 == k then (q.1, q.2 + 1) :: rest else q :: recordBump rest k from rfl]
    by_cases hq : (q.1 == k) = true
    · have hq' : q.1 = k := by simpa [beq_iff_eq] using hq
      rw [if_pos hq]
      simp [hq']
    · have hq' : ¬ q.1 = k := by simpa [beq_iff_eq] using hq
      rw [if_neg hq]
      simp only [List.map_cons, ih]
      by_cases hk : k ∈ rest.map (·.1)
      · rw [if_pos hk, if_pos (List.mem_cons_of_mem _ hk)]
      · rw [if_neg hk, if_neg (by
          intro hmem
          rcases List.mem_cons.mp hmem with he | hmem'
          · exact hq' he.symm
          · exact hk hmem')]
        simp

theorem recordBump_keys_nodup (acc : List (String × Nat)) (k : String)
    (h : (acc.map (·.1)).Nodup) : ((recordBump acc k).map (·.1)).Nodup := by
  rw [recordBump_keys]
  by_cases hk : k ∈ acc.map (·.1)
  · rwa [if_pos hk]
  · rw [if_neg hk, List.nodup_append]
    exact ⟨h, List.nodup_singleton k, by simpa [List.disjoint_singleton] using hk⟩

theorem countsGet_isSome_iff (acc : List (String × Nat)) (s : String) :
    (countsGet acc s).isSome = true ↔ s ∈ acc.map (·.1) := by
  induction acc with
  | nil => simp [countsGet]
  | cons q rest ih =>
    rw [countsGet_cons]
    by_cases hq : (q.1 == s) = true
    · have hq' : q.1 = s := by simpa [beq_iff_eq] using hq
      simp [hq, hq']
    · have hq' : ¬ q.1 = s := by simpa [beq_iff_eq] using hq
      rw [if_neg (by simpa using hq), ih]
      simp only [List.map_cons, List.mem_cons]
      constructor
      · exact Or.inr
      · rintro (he | hm)
        · exact absurd he.symm hq'
        · exact hm

theorem countsGet_of_mem :
    ∀ (acc : List (String × Nat)), ((acc.map (·.1)).Nodup) →
      ∀ p ∈ acc, countsGet acc p.1 = some p.2
  | [], _, p, hmem => by cases hmem
  | q :: rest, hnd, p, hmem => by
    simp only [List.map_cons, List.nodup_cons] at hnd
    rw [countsGet_cons]
    rcases List.mem_cons.mp hmem with rfl | hmem'
    · simp
    · by_cases hq : (q.1 == p.1) = true
      · exfalso
        have hp1 : p.1 ∈ rest.map (·.1) := List.mem_map.mpr ⟨p, hmem', rfl⟩
        have hq' : q.1 = p.1 := by simpa [beq_iff_eq] using hq
        exact hnd.1 (hq' ▸ hp1)
      · rw [if_neg (by simpa using hq)]
        exact countsGet_of_mem rest hnd.2 p hmem'

theorem sourceCounts_append_singleton (l : List ClickData) (c : ClickData) :
    sourceCounts (l ++ [c]) = recordBump (sourceCounts l) c.source := by
  simp [sourceCounts, List.foldl_append]

theorem countSource_append_singleton (l : List ClickData) (c : ClickData)
    (s : String) :
    countSource (l ++ [c]) s
      = countSource l s + (if c.source == s then 1 else 0) := by
  simp only [countSource, List.countP_append, List.countP_cons, List.countP_nil]
  cases c.source == s <;> simp

theorem sourceCounts_get (clicks : List ClickData) :
    ∀ s, countsGet (sourceCounts clicks) s =
      if countSource clicks s = 0 then none else some (countSource clicks s) := by
  induction clicks using List.reverseRecOn with
  | nil => intro s; simp [sourceCounts, countSource, countsGet]
  | append_singleton l c ih =>
    intro s
    rw [sourceCounts_append_singleton, countsGet_recordBump,
      countSource_append_singleton]
    by_cases hs : s = c.source
    · subst hs
      rw [if_pos rfl, ih c.source]
      have hind : (if (c.source == c.source) = true then 1 else 0) = 1 := by simp
      rw [hind]
      by_cases h0 : countSource l c.source = 0
      · rw [if_pos h0, h0]
        simp
      · rw [if_neg h0, if_neg (by omega)]
        simp
    · have hcs : (c.source == s) = false := by
        simp only [beq_eq_false_iff_ne, ne_eq]
        exact fun e => hs e.symm
      rw [if_neg hs, ih s, hcs]
      simp

theorem sourceCounts_keys_nodup (clicks : List ClickData) :
    ((sourceCounts clicks).map (·.1)).Nodup := by
  induction clicks using List.reverseRecOn with
  | nil => simp [sourceCounts]
  | append_singleton l c ih =>
    rw [sourceCounts_append_singleton]
    exact recordBump_keys_nodup _ _ ih

theorem mem_sourceCounts_count (clicks : List ClickData) (p : String × Nat)
    (hmem : p ∈ sourceCounts clicks) :
    p.2 = countSource clicks p.1 ∧ countSource clicks p.1 ≠ 0 := by
  have h1 := countsGet_of_mem _ (sourceCounts_keys_nodup clicks) p hmem
  rw [sourceCounts_get] at h1
  by_cases h0 : countSource clicks p.1 = 0
  · rw [if_pos h0] at h1
    cases h1
  · rw [if_neg h0] at h1
    exact ⟨(Option.some.inj h1).symm, h0⟩

theorem source_mem_keys_iff (clicks : List ClickData) (s : String) :
    s ∈ (sourceCounts clicks).map (·.1) ↔ countSource clicks s ≠ 0 := by
  rw [← countsGet_isSome_iff, sourceCounts_get]
  by_cases h0 : countSource clicks s = 0 <;> simp [h0]

theorem countSource_ne_zero_iff (clicks : List ClickData) (s : String) :
    countSource clicks s ≠ 0 ↔ ∃ c ∈ clicks, c.source = s := by
  rw [countSource, ← Nat.pos_iff_ne_zero, List.countP_pos_iff]
  simp [beq_iff_eq]

theorem objectEntries_perm (props : List (String × Nat)) :
    (objectEntries props).Perm props := by
  rw [objectEntries]
  exact ((stableSort_perm _ _).append (List.Perm.refl _)).trans
    (List.filter_append_perm _ props)

theorem objectEntries_no_index (props : List (String × Nat))
    (h : ∀ p ∈ props, isArrayIndexKey p.1 = false) : objectEntries props = props := by
  have h1 : List.filter (fun p => isArrayIndexKey p.1) props = [] :=
    List.filter_eq_nil_iff.mpr (by intro a ha; simp [h a ha])
  have h2 : List.filter (fun p => ! isArrayIndexKey p.1) props = props :=
    List.filter_eq_self.mpr (by intro a ha; simp [h a ha])
  rw [objectEntries, h1, h2]
  simp [stableSort]

/-- The pipeline exactly as the claim words it (refinement-comparison
definition, following the spec's text): counts in first-encountered order,
stably sorted descending by count, top 5 — without the JavaScript object's
property-key reordering. -/
def topSourcesSpec (clicks : List ClickData) : List (String × Nat) :=
  (stableSort (fun a b => decide (b.2 ≤ a.2)) (sourceCounts clicks)).take 5

/-- Three records' worth of clicks from sources {a, a, b} (Scenario F). -/
def scenarioFClicks : List ClickData :=
  [⟨0, "a", "L", "UA", none⟩, ⟨1, "a", "L", "UA", none⟩, ⟨2, "b", "L", "UA", none⟩]

/-- C10 (amended): `getTopSources` groups the clicks by source, counts
occurrences, sorts descending by count and returns the top 5; ties are
broken by the counts object's property enumeration order — sources that are
canonical array-index strings come first in ascending numeric order, and
only when no source is such a string does the tie order coincide with the
claim's first-encountered order.  In particular the scenario {a,a,b} yields
[(a,2),(b,1)]. -/
theorem topSources_behaviour (clicks : List ClickData) :
    ((∀ c ∈ clicks, isArrayIndexKey c.source = false) →
      getTopSources clicks = topSourcesSpec clicks)
    ∧ (∀ p ∈ getTopSources clicks,
        p.2 = countSource clicks p.1 ∧ ∃ c ∈ clicks, c.source = p.1)
    ∧ ((getTopSources clicks).map (·.1)).Nodup
    ∧ (getTopSources clicks).Pairwise (fun a b => b.2 ≤ a.2)
    ∧ (∀ s, (∃ c ∈ clicks, c.source = s) →
        s ∉ (getTopSources clicks).map (·.1) →
        ∀ p ∈ getTopSources clicks, countSource clicks s ≤ p.2)
    ∧ (getTopSources clicks).length = min 5 (sourceCounts clicks).length
    ∧ (∀ n : Nat, List.Sublist
        ((getTopSources clicks).filter fun p => p.2 == n)
        ((objectEntries (sourceCounts clicks)).filter fun p => p.2 == n))
    ∧ getTopSources scenarioFClicks = [("a", 2), ("b", 1)] := by
  have htrans : ∀ a b c : String × Nat, decide (b.2 ≤ a.2) = true →
      decide (c.2 ≤ b.2) = true → decide (c.2 ≤ a.2) = true := by
    intro a b c h1 h2
    simp only [decide_eq_true_eq] at h1 h2 ⊢
    omega
  have htotal : ∀ a b : String × Nat,
      decide (b.2 ≤ a.2) = true ∨ decide (a.2 ≤ b.2) = true := by
    intro a b
    simp only [decide_eq_true_eq]
    omega
  have hperm1 : (stableSort (fun a b : String × Nat => decide (b.2 ≤ a.2))
      (objectEntries (sourceCounts clicks))).Perm (objectEntries (sourceCounts clicks)) :=
    stableSort_perm _ _
  have hperm2 : (objectEntries (sourceCounts clicks)).Perm (sourceCounts clicks) :=
    objectEntries_perm _
  have hr : getTopSources clicks = (stableSort (fun a b : String × Nat =>
      decide (b.2 ≤ a.2)) (objectEntries (sourceCounts clicks))).take 5 := rfl
  have hmem_of : ∀ p, p ∈ getTopSources clicks → p ∈ sourceCounts clicks := by
    intro p hp
    rw [hr] at hp
    exact hperm2.mem_iff.mp (hperm1.mem_iff.mp (List.mem_of_mem_take hp))
  have hpair : (stableSort (fun a b : String × Nat => decide (b.2 ≤ a.2))
      (objectEntries (sourceCounts clicks))).Pairwise
        fun a b => decide (b.2 ≤ a.2) = true :=
    stableSort_pairwise _ htrans htotal _
  refine ⟨?_, ?_, ?_, ?_, ?_, ?_, ?_, by decide⟩
  · intro hnoidx
    have hkeys : ∀ p ∈ sourceCounts clicks, isArrayIndexKey p.1 = false := by
      intro p hp
      obtain ⟨-, hne⟩ := mem_sourceCounts_count clicks p hp
      obtain ⟨c, hc, hcs⟩ := (countSource_ne_zero_iff clicks p.1).mp hne
      rw [← hcs]
      exact hnoidx c hc
    rw [getTopSources, topSourcesSpec, objectEntries_no_index _ hkeys]
  · intro p hp
    obtain ⟨h2, hne⟩ := mem_sourceCounts_count clicks p (hmem_of p hp)
    exact ⟨h2, (countSource_ne_zero_iff clicks p.1).mp hne⟩
  · have h1 : ((sourceCounts clicks).map (·.1)).Nodup := sourceCounts_keys_nodup clicks
    have h2 := ((hperm2.map (·.1)).nodup_iff).mpr h1
    have h3 := ((hperm1.map (·.1)).nodup_iff).mpr h2
    rw [hr]
    exact ((List.take_sublist 5 _).map (fun x : String × Nat => x.1)).nodup
      (by simpa using h3)
  · rw [hr]
    exact (List.Pairwise.sublist (List.take_sublist 5 _) hpair).imp
      fun h => of_decide_eq_true h
  · intro s hs hnot p hp
    rw [hr] at hnot hp
    have hne := (countSource_ne_zero_iff clicks s).mpr hs
    have hkey : s ∈ (sourceCounts clicks).map (·.1) :=
      (source_mem_keys_iff clicks s).mpr hne
    obtain ⟨q, hq, hq1⟩ := List.mem_map.mp hkey
    obtain ⟨hq2, -⟩ := mem_sourceCounts_count clicks q hq
    have hqsorted : q ∈ stableSort (fun a b : String × Nat => decide (b.2 ≤ a.2))
        (objectEntries (sourceCounts clicks)) :=
      hperm1.mem_iff.mpr (hperm2.mem_iff.mpr hq)
    rw [← List.take_append_drop 5 (stableSort (fun a b : String × Nat =>
      decide (b.2 ≤ a.2)) (objectEntries (sourceCounts clicks)))] at hqsorted
    rcases List.mem_append.mp hqsorted with hqt | hqd
    · exact absurd (hq1 ▸ List.mem_map.mpr ⟨q, hqt, rfl⟩) hnot
    · have hpair' := hpair
      rw [← List.take_append_drop 5 (stableSort (fun a b : String × Nat =>
        decide (b.2 ≤ a.2)) (objectEntries (sourceCounts clicks)))] at hpair'
      have hrel := (List.pairwise_append.mp hpair').2.2 p hp q hqd
      have hle : q.2 ≤ p.2 := of_decide_eq_true hrel
      rw [← hq1, ← hq2]
      exact hle
  · rw [hr, List.length_take, hperm1.length_eq, hperm2.length_eq]
  · intro n
    have hclass : ∀ a b : String × Nat, (a.2 == n) = true → (b.2 == n) = true →
        decide (b.2 ≤ a.2) = true := by
      intro a b ha hb
      simp only [beq_iff_eq] at ha hb
      simp [ha, hb]
    have heq := stableSort_filter_class (fun a b : String × Nat =>
      decide (b.2 ≤ a.2)) (fun p => p.2 == n) hclass (objectEntries (sourceCounts clicks))
    rw [hr, ← heq]
    exact (List.take_sublist 5 _).filter _

/-- C10 witness: on Scenario F's clicks no source is an array-index string,
so `getTopSources` coincides with the claim's first-encountered pipeline. -/
theorem topSources_behaviour_witness :
    getTopSources scenarioFClicks = topSourcesSpec scenarioFClicks :=
  (topSources_behaviour scenarioFClicks).1 (by decide)

/-- Clicks from sources `b` then `1`: the numeric-string source. -/
def numericTieClicks : List ClickData :=
  [⟨0, "b", "L", "UA", none⟩, ⟨1, "1", "L", "UA", none⟩]

/-- C10 counterexample: with sources `b` (first encountered) and `1`, both
with one click, the counts object enumerates the array-index key `1` first,
so the tie comes out [(1,1),(b,1)] — not the claim's first-encountered order
[(b,1),(1,1)]. -/
theorem topSources_numeric_key_reorder :
    getTopSources numericTieClicks = [("1", 1), ("b", 1)]
    ∧ topSourcesSpec numericTieClicks = [("b", 1), ("1", 1)]
    ∧ getTopSources numericTieClicks ≠ topSourcesSpec numericTieClicks := by
  decide
